import Mathlib

/-!
# Cerana: verification development

Shallow embedding of parts of the cerana providers and tools:

* `providers/kv/watch.go`: the event reader started by `makeEventReader`
  and the `kv-stop` handler;
* `providers/service/service.go`: `Provider.executeRequests`;
* `cmd/statspusher/config.go`: `canonicalFlagName`.

Go strings and byte slices are modelled as `List Char` (valid UTF-8 text,
one `Char` per rune).
-/

set_option linter.dupNamespace false

namespace Cerana

/-! ## providers/kv/watch.go : makeEventReader -/

namespace KV

/-- Struct `Event` of watch.go: the embedded `kv.Event` (of type `κ`, declared in
`pkg/kv`) and the field `Error` of interface type `error`; a nil interface is
`none`, a non-nil one carries its dynamic value of type `ε`. -/
structure Event (κ ε : Type) where
  Event : κ
  Error : Option ε

/-- One member of a JSON object written by `encoding/json`: the member name and the
encoded member (quoted name, colon, encoded value). -/
structure Member where
  name : String
  text : List Char
deriving DecidableEq, Repr

/-- What `encoding/json` needs to know about the types that watch.go does not
declare: the zero value of `kv.Event`, the members it emits for the promoted
fields of a `kv.Event`, and the encoding of the dynamic value of a non-nil
`error` (`none` when `json.Marshal` fails on it). -/
structure Encoding (κ ε : Type) where
  zeroEvent : κ
  eventMembers : κ → List Member
  errorValue : ε → Option (List Char)

variable {κ ε : Type}

/-- Encoded value of the field `Error`: `null` for a nil interface, the encoding of
the dynamic value otherwise. -/
def encodeError (enc : Encoding κ ε) : Option ε → Option (List Char)
  | none => some "null".toList
  | some v => enc.errorValue v

/-- The member written for the field `Error`. -/
def errorMember (v : List Char) : Member :=
  { name := "Error", text := "\"Error\":".toList ++ v }

/-- Members of the JSON object for an `Event`, in the order `encoding/json` writes
them: the promoted fields of the embedded `kv.Event` (a promoted field named
`Error` is hidden by the shallower field of `Event`), then `Error`. -/
def eventObject (enc : Encoding κ ε) (e : Event κ ε) : Option (List Member) :=
  (encodeError enc e.Error).map fun v =>
    (enc.eventMembers e.Event).filter (fun m => m.name ≠ "Error") ++ [errorMember v]

/-- Members joined by commas. -/
def joinMembers : List Member → List Char
  | [] => []
  | [m] => m.text
  | m :: ms => m.text ++ ',' :: joinMembers ms

/-- Compact text of a JSON object. -/
def renderObject (ms : List Member) : List Char :=
  '\x7b' :: (joinMembers ms ++ ['\x7d'])

/-- `json.Marshal(event)`: the bytes, or `none` when marshalling fails. -/
def marshal (enc : Encoding κ ε) (e : Event κ ε) : Option (List Char) :=
  (eventObject enc e).map renderObject

/-- The `io.Pipe` between the goroutine and the consumer of the returned reader.
`delivered` is what the consumer has read so far; `budget` is the number of
bytes the consumer still reads before it closes the read end (`none`: it keeps
reading); `writeClosed` and `readClosed` record `w.Close` and `r.Close`. -/
structure Pipe where
  delivered : List Char
  budget : Option Nat
  writeClosed : Bool
  readClosed : Bool
deriving DecidableEq, Repr

/-- `w.Write(data)` on the pipe: the new pipe, the count `n` and whether an error
was returned. The write is complete unless the consumer closes the read end
first. -/
def Pipe.write (p : Pipe) (data : List Char) : Pipe × Nat × Bool :=
  match p.budget with
  | none => ({ p with delivered := p.delivered ++ data }, data.length, false)
  | some k =>
    if data.length ≤ k then
      ({ p with delivered := p.delivered ++ data, budget := some (k - data.length) },
        data.length, false)
    else
      ({ p with delivered := p.delivered ++ data.take k, budget := some 0 }, k, true)

/-- The deferred `w.Close` and `r.Close`. -/
def Pipe.close (p : Pipe) : Pipe :=
  { p with writeClosed := true, readClosed := true }

/-- What one `select` of the loop receives. -/
inductive Recv (κ ε : Type) where
  /-- `ev, ok = <-events` with `ok` true. -/
  | event (ev : κ)
  /-- `ev, ok = <-events` with `ok` false. -/
  | eventsClosed
  /-- `err, ok = <-errs` with `ok` true. -/
  | error (err : Option ε)
  /-- `err, ok = <-errs` with `ok` false. -/
  | errsClosed

/-- The `return` statement by which the goroutine left the loop. -/
inductive Exit where
  | sourceClosed
  | marshalFailed
  | writeFailed
  | shortWrite
deriving DecidableEq, Repr

/-- State of the goroutine: the pipe, the slices passed to the `Write` calls that
completed, and the `return` taken (`none` while the loop is running). -/
structure Producer where
  pipe : Pipe
  writes : List (List Char)
  exit : Option Exit
deriving DecidableEq, Repr

/-- State of the goroutine when it enters the loop. -/
def Producer.init (budget : Option Nat) : Producer :=
  { pipe := { delivered := [], budget := budget, writeClosed := false, readClosed := false },
    writes := [], exit := none }

/-- Leaving the goroutine: the deferred calls close both ends of the pipe. -/
def Producer.leave (s : Producer) (x : Exit) : Producer :=
  { s with pipe := s.pipe.close, exit := some x }

/-- Lines 54 to 67: marshal the event and write it to the pipe. -/
def emit (enc : Encoding κ ε) (s : Producer) (event : Event κ ε) : Producer :=
  match marshal enc event with
  | none => s.leave Exit.marshalFailed
  | some data =>
    match s.pipe.write data with
    | (p, n, failed) =>
      if failed then { s with pipe := p }.leave Exit.writeFailed
      else if n ≠ data.length then { s with pipe := p }.leave Exit.shortWrite
      else { s with pipe := p, writes := s.writes ++ [data] }

/-- One iteration of the `for` loop, given what `select` receives. A goroutine that
has returned receives nothing more. -/
def step (enc : Encoding κ ε) (s : Producer) (r : Recv κ ε) : Producer :=
  match s.exit with
  | some _ => s
  | none =>
    match r with
    | Recv.event ev => emit enc s { Event := ev, Error := none }
    | Recv.eventsClosed => s.leave Exit.sourceClosed
    | Recv.error err => emit enc s { Event := enc.zeroEvent, Error := err }
    | Recv.errsClosed => s.leave Exit.sourceClosed

/-- The goroutine of `makeEventReader` run on the receipts of its successive
`select`s, with a consumer of the given budget. -/
def makeEventReader (enc : Encoding κ ε) (budget : Option Nat) (trace : List (Recv κ ε)) :
    Producer :=
  trace.foldl (step enc) (Producer.init budget)

/-- The JSON object of the record the loop writes for a receipt; `none` for a
closed channel or a failing `json.Marshal`. -/
def recordObject (enc : Encoding κ ε) : Recv κ ε → Option (List Member)
  | Recv.event ev => eventObject enc { Event := ev, Error := none }
  | Recv.error err => eventObject enc { Event := enc.zeroEvent, Error := err }
  | _ => none

/-- The bytes of the record the loop writes for a receipt. -/
def recordOf (enc : Encoding κ ε) (r : Recv κ ε) : Option (List Char) :=
  (recordObject enc r).map renderObject

/-- Whether a JSON object has a member named `Error`. -/
def hasErrorField (ms : List Member) : Bool :=
  ms.any fun m => m.name = "Error"

/-- A `kv.Event` with the single field `Key`, and errors whose dynamic value
encodes as a JSON string: a small instance of `Encoding`. -/
def keyEncoding : Encoding String String where
  zeroEvent := ""
  eventMembers k := [{ name := "Key", text := "\"Key\":\"".toList ++ k.toList ++ ['\x22'] }]
  errorValue e := some ('\x22' :: (e.toList ++ ['\x22']))

end KV

/-! ## providers/kv/watch.go : KV.stop -/

namespace KV

/-- Modelled from the spec: the cancellable-operation registry behind `watches`
(`newChanMap`, declared outside the given sources): a table from cookie to
signal. A signal is a channel, named by a number; `closed` holds the channels
that have been closed. -/
structure ChanMap where
  chans : List (Nat × Nat)
  closed : List Nat
deriving DecidableEq, Repr

/-- Modelled from the spec: what closing a signal does to the registry. The channel
is closed and, a handle being "destroyed when the signal is closed", every
entry that holds it leaves the table. -/
def ChanMap.signalClosed (m : ChanMap) (ch : Nat) : ChanMap :=
  { chans := m.chans.filter (fun e => e.2 ≠ ch), closed := ch :: m.closed }

/-- Modelled from the spec: the registry states that its operations reach. A cookie
is "unique per live registration", and no entry holds a closed signal (`Add`
fails "if the supplied signal is already closed", and closing a signal
destroys its handle). -/
def ChanMap.WellFormed (m : ChanMap) : Prop :=
  (m.chans.map Prod.fst).Nodup ∧ ∀ e ∈ m.chans, e.2 ∉ m.closed

instance (m : ChanMap) : Decidable m.WellFormed := by
  unfold ChanMap.WellFormed; infer_instance

/-- Modelled from the spec: `Get(cookie)` of the registry, which "fails with
`UnknownCookie` if not present; otherwise returns the associated signal without
removing the entry". -/
def ChanMap.Get (m : ChanMap) (cookie : Nat) : Option Nat :=
  (m.chans.find? fun e => e.1 = cookie).map fun e => e.2

/-- The errors `stop` returns. -/
inductive StopError where
  | unmarshalArgs
  | missingCookie
  | unknownCookie
deriving DecidableEq, Repr

/-- How a call of `stop` ends: it returns (with its error, if any, and the registry
it leaves), or the runtime panics with "close of closed channel". -/
inductive StopResult where
  | returned (err : Option StopError) (m : ChanMap)
  | panicked
deriving DecidableEq, Repr

/-- `KV.stop` (watch.go:108). `args` is what `req.UnmarshalArgs` decodes: `none` when
it fails, the cookie otherwise. -/
def stop (m : ChanMap) (args : Option Nat) : StopResult :=
  match args with
  | none => StopResult.returned (some StopError.unmarshalArgs) m
  | some cookie =>
    if cookie = 0 then StopResult.returned (some StopError.missingCookie) m
    else
      match m.Get cookie with
      | none => StopResult.returned (some StopError.unknownCookie) m
      | some ch =>
        if ch ∈ m.closed then StopResult.panicked
        else StopResult.returned none (m.signalClosed ch)

end KV

/-! ## providers/service/service.go : executeRequests -/

namespace Service

/-- The part of `acomm.Response` that `executeRequests` reads: the id and the
error (`none` for a nil `Error`). -/
structure Response where
  ID : String
  Error : Option String
deriving DecidableEq, Repr

/-- A `chan *acomm.Response`: its buffered values and whether it is closed. -/
structure Chan where
  buf : List Response
  closed : Bool
deriving DecidableEq, Repr

/-- The tracker table and the channels made by `executeRequests`. An entry of the
table holds the request id and the channel that the handler installed on the
request sends to. -/
structure World where
  tracked : List (String × Nat)
  chans : List Chan
deriving DecidableEq, Repr

/-- `make(chan *acomm.Response, 1)`: the new channel is the last of `chans`. -/
def World.makeChan (w : World) : World × Nat :=
  ({ w with chans := w.chans ++ [{ buf := [], closed := false }] }, w.chans.length)

/-- `close(doneChan)`. -/
def World.closeChan (w : World) (ch : Nat) : World :=
  { w with chans := w.chans.modify (fun c => { c with closed := true }) ch }

/-- Modelled from the spec: `Register(request, timeout)` of the Tracker
(`acomm.Tracker.TrackRequest`, declared outside the given sources): "validates
`request.ID` is non-empty and not already tracked (fails with
`DuplicateRequest` otherwise)", the timeout "must be > 0", and it "stores the
entry keyed by ID". -/
def TrackRequest (w : World) (id : String) (handler : Nat) (timeout : Int) :
    Except String World :=
  if id = "" then Except.error "InvalidRequest"
  else if w.tracked.any (fun e => e.1 = id) then Except.error "DuplicateRequest"
  else if timeout ≤ 0 then Except.error "InvalidTimeout"
  else Except.ok { w with tracked := w.tracked ++ [(id, handler)] }

/-- How the resolution of a request ends. -/
inductive Resolution where
  /-- The id is not tracked: no handler is invoked. -/
  | unknownRequest
  /-- The entry was removed and the handler sent the response to its channel. -/
  | delivered (w : World)
  /-- The handler would block: the buffer of its channel is full. -/
  | blocked
  /-- The handler sent on a closed channel: the runtime panics. -/
  | panicked
deriving DecidableEq, Repr

/-- The handler `rh` installed by `executeRequests`: `doneChan <- resp`. -/
def handler (w : World) (ch : Nat) (resp : Response) : Resolution :=
  match w.chans.get? ch with
  | none => Resolution.blocked
  | some c =>
    if c.closed then Resolution.panicked
    else if 1 ≤ c.buf.length then Resolution.blocked
    else Resolution.delivered
      { w with chans := w.chans.modify (fun c => { c with buf := c.buf ++ [resp] }) ch }

/-- Modelled from the spec: `Resolve(response)` of the Tracker, also taken by its
deadline path with the synthesized timeout response: "looks up `response.ID`.
If absent ... returns `UnknownRequest` and performs no handler invocation ...
If present, removes the entry" and invokes the handler (here the success and
the error handler are the same function). -/
def Resolve (w : World) (resp : Response) : Resolution :=
  match w.tracked.find? fun e => e.1 = resp.ID with
  | none => Resolution.unknownRequest
  | some e =>
    handler { w with tracked := w.tracked.filter fun e' => e'.1 ≠ resp.ID } e.2 resp

/-- What the environment does with one request of the list: whether `acomm.Send`
fails, and the error of the response that resolves the request (a real
response, or the timeout synthesized by the tracker). -/
structure Delivery where
  sendFails : Bool
  replyError : Option String
deriving DecidableEq, Repr

/-- How `executeRequests` ends: it returns its error and leaves a world, or does
not return. -/
inductive Outcome where
  | returned (err : Option String) (w : World)
  | stuck
deriving DecidableEq, Repr

/-- The loop of `executeRequests` (service.go:32-52). `made` holds the channels whose
`close` has been deferred. The result is the error returned, the world and
the deferred channels, or `none` when the loop does not reach a `return`. -/
def executeLoop (timeout : Int) :
    World → List Nat → List (String × Delivery) → Option (Option String × World × List Nat)
  | w, made, [] => some (none, w, made)
  | w, made, (id, d) :: rest =>
    match w.makeChan with
    | (w1, doneChan) =>
      match TrackRequest w1 id doneChan timeout with
      | Except.error err => some (some err, w1, doneChan :: made)
      | Except.ok w2 =>
        if d.sendFails then some (some "send failed", w2, doneChan :: made)
        else
          match Resolve w2 { ID := id, Error := d.replyError } with
          | Resolution.delivered w3 =>
            match w3.chans.get? doneChan with
            | some { buf := resp :: more, closed := cl } =>
              let w4 := { w3 with
                chans := w3.chans.modify (fun _ => { buf := more, closed := cl }) doneChan }
              match resp.Error with
              | some err => some (some err, w4, doneChan :: made)
              | none => executeLoop timeout w4 (doneChan :: made) rest
            | _ => none
          | _ => none

/-- `Provider.executeRequests` (service.go:31): the loop, then the deferred
`close(doneChan)` calls, last deferred first. -/
def executeRequests (timeout : Int) (w : World) (requests : List (String × Delivery)) :
    Outcome :=
  match executeLoop timeout w [] requests with
  | none => Outcome.stuck
  | some (err, w1, made) => Outcome.returned err (made.foldl World.closeChan w1)

/-- Whether a request id is in the tracker table. -/
def World.isTracked (w : World) (id : String) : Bool :=
  w.tracked.any fun e => e.1 = id

/-- A tracker that tracks nothing. -/
def World.empty : World :=
  { tracked := [], chans := [] }

end Service

/-! ## cmd/statspusher/config.go : canonicalFlagName -/

namespace Statspusher

/-- The tables of package `unicode` beyond ASCII: the case mappings `ToUpper`,
`ToLower`, `ToTitle` and the classes `IsLetter`, `IsDigit` for runes above
`MaxASCII`. Below, ASCII runes take the fast paths of package `unicode`. -/
structure UnicodeTables where
  upper : Char → Char
  lower : Char → Char
  title : Char → Char
  letter : Char → Bool
  digit : Char → Bool

/-- Tables that map every rune to itself and know no letter or digit: enough to run
the functions on ASCII names. -/
def asciiTables : UnicodeTables where
  upper c := c
  lower c := c
  title c := c
  letter _ := false
  digit _ := false

/-- The class `[\s._-]` of `flagSep`; `\s` is `[\t\n\f\r ]`. -/
def isFlagSep (c : Char) : Bool :=
  c = '\t' || c = '\n' || c = '\x0c' || c = '\r' || c = ' ' || c = '.' || c = '_' || c = '-'

/-- `flagSep.ReplaceAllString(name, " ")`, scanning left to right; `inRun` tells
that the previous rune belongs to the match being replaced. -/
def replaceFlagSepFrom : Bool → List Char → List Char
  | _, [] => []
  | inRun, c :: cs =>
    if isFlagSep c then
      if inRun then replaceFlagSepFrom true cs else ' ' :: replaceFlagSepFrom true cs
    else c :: replaceFlagSepFrom false cs

/-- `flagSep.ReplaceAllString(name, " ")`: every maximal run of separators becomes one
space. -/
def replaceFlagSep (name : List Char) : List Char :=
  replaceFlagSepFrom false name

/-- `unicode.IsSpace`. -/
def isSpace (c : Char) : Bool :=
  (0x09 ≤ c.toNat && c.toNat ≤ 0x0D) || c.toNat = 0x20 || c.toNat = 0x85 || c.toNat = 0xA0 ||
  c.toNat = 0x1680 || (0x2000 ≤ c.toNat && c.toNat ≤ 0x200A) || c.toNat = 0x2028 ||
  c.toNat = 0x2029 || c.toNat = 0x202F || c.toNat = 0x205F || c.toNat = 0x3000

/-- `strings.TrimSpace`. -/
def TrimSpace (s : List Char) : List Char :=
  ((s.dropWhile isSpace).reverse.dropWhile isSpace).reverse

/-- `unicode.ToUpper`. -/
def toUpper (U : UnicodeTables) (r : Char) : Char :=
  if r.toNat ≤ 0x7F then r.toUpper else U.upper r

/-- `unicode.ToLower`. -/
def toLower (U : UnicodeTables) (r : Char) : Char :=
  if r.toNat ≤ 0x7F then r.toLower else U.lower r

/-- `unicode.ToTitle`. -/
def toTitle (U : UnicodeTables) (r : Char) : Char :=
  if r.toNat ≤ 0x7F then r.toUpper else U.title r

/-- `strings.ToUpper`. -/
def ToUpper (U : UnicodeTables) (s : List Char) : List Char :=
  s.map (toUpper U)

/-- `strings.ToLower`. -/
def ToLower (U : UnicodeTables) (s : List Char) : List Char :=
  s.map (toLower U)

/-- `isSeparator` of package `strings`: ASCII alphanumerics and underscore are not
separators, other ASCII runes are; beyond ASCII, letters and digits are not
separators and spaces are. -/
def isSeparator (U : UnicodeTables) (r : Char) : Bool :=
  if r.toNat ≤ 0x7F then !(r.isDigit || r.isLower || r.isUpper || r = '_')
  else if U.letter r || U.digit r then false
  else isSpace r

/-- The mapping closure of `strings.Title`, with its variable `prev`. -/
def titleFrom (U : UnicodeTables) : Char → List Char → List Char
  | _, [] => []
  | prev, r :: rs => (if isSeparator U prev then toTitle U r else r) :: titleFrom U r rs

/-- `strings.Title`. -/
def Title (U : UnicodeTables) (s : List Char) : List Char :=
  titleFrom U ' ' s

/-- `strings.Split(s, " ")`. -/
def splitSpace : List Char → List (List Char)
  | [] => [[]]
  | c :: cs =>
    if c = ' ' then [] :: splitSpace cs
    else
      match splitSpace cs with
      | [] => [[c]]
      | p :: ps => (c :: p) :: ps

/-- Whether `specialCaps`, `(?i)^(url|cpu|ip|id)$`, matches the part. -/
def isSpecialCaps (part : List Char) : Bool :=
  part.map Char.toLower ∈ ["url".toList, "cpu".toList, "ip".toList, "id".toList]

/-- `specialCaps.ReplaceAllStringFunc(part, caseFn)`. -/
def replaceSpecialCaps (caseFn : List Char → List Char) (part : List Char) : List Char :=
  if isSpecialCaps part then caseFn part else part

/-- The loop over `nameParts` (config.go:89-96), from index `i` on. -/
def specialCapsFrom (U : UnicodeTables) : Nat → List (List Char) → List (List Char)
  | _, [] => []
  | i, part :: parts =>
    replaceSpecialCaps (if i = 0 then ToLower U else ToUpper U) part ::
      specialCapsFrom U (i + 1) parts

/-- Lines 99 to 104: the first letter of the first part is lower-cased unless the
part is an all-caps word of more than one rune. -/
def lowerFirst (U : UnicodeTables) : List (List Char) → List (List Char)
  | [] => []
  | first :: rest =>
    if first.length = 1 ∨ first ≠ ToUpper U first then
      match first with
      | [] => [toLower U (Char.ofNat 0xFFFD)] :: rest
      | r :: tl => (toLower U r :: tl) :: rest
    else first :: rest

/-- `canonicalFlagName` (config.go:80). -/
def canonicalFlagName (U : UnicodeTables) (name : List Char) : List Char :=
  (lowerFirst U (specialCapsFrom U 0
    (splitSpace (Title U (TrimSpace (replaceFlagSep name)))))).flatten

/-- The words of a name: its maximal runs of runes that are not in the class of
`flagSep`. -/
def words : List Char → List (List Char)
  | [] => []
  | c :: cs =>
    if isFlagSep c then words cs
    else
      match cs with
      | [] => [[c]]
      | d :: _ =>
        if isFlagSep d then [c] :: words cs
        else
          match words cs with
          | [] => [[c]]
          | w :: ws => (c :: w) :: ws

/-- Words joined by single spaces. -/
def joinWords : List (List Char) → List Char
  | [] => []
  | [w] => w
  | w :: ws => w ++ ' ' :: joinWords ws

/-- Every word followed by a space. -/
def spaceAfter : List (List Char) → List Char
  | [] => []
  | v :: vs => v ++ ' ' :: spaceAfter vs

/-- Every word preceded by a space. -/
def spaceBefore : List (List Char) → List Char
  | [] => []
  | v :: vs => ' ' :: (v ++ spaceBefore vs)

/-- A name made of ASCII runes only. -/
def IsAscii (s : List Char) : Prop :=
  ∀ c ∈ s, c.toNat ≤ 0x7F

instance (s : List Char) : Decidable (IsAscii s) := by
  unfold IsAscii; infer_instance

/-- The flags registered by `newConfig` (config.go:61-69), each with its lower-case
words. -/
def registeredFlags : List (List Char × List (List Char)) :=
  [("configFile".toList, ["config".toList, "file".toList]),
   ("nodeDataURL".toList, ["node".toList, "data".toList, "url".toList]),
   ("clusterDataURL".toList, ["cluster".toList, "data".toList, "url".toList]),
   ("logLevel".toList, ["log".toList, "level".toList]),
   ("requestTimeout".toList, ["request".toList, "timeout".toList]),
   ("datasetInterval".toList, ["dataset".toList, "interval".toList]),
   ("bundleInterval".toList, ["bundle".toList, "interval".toList]),
   ("nodeInterval".toList, ["node".toList, "interval".toList]),
   ("datasetDir".toList, ["dataset".toList, "dir".toList])]

end Statspusher

/-! ## cmd/statspusher/config.go : validate -/

namespace Statspusher

/-- What the getters of `config` read from viper: the four durations (a
`time.Duration` is a signed count of nanoseconds) and the three strings. -/
structure ConfigValues where
  datasetInterval : Int
  bundleInterval : Int
  nodeInterval : Int
  requestTimeout : Int
  nodeDataURL : String
  clusterDataURL : String
  datasetDir : String
deriving DecidableEq, Repr

/-- `config.validateURL` (config.go:205) on the value stored under `name`;
`parses u` tells whether `url.ParseRequestURI(u)` succeeds. The result is the
message of the error returned, `none` for nil. -/
def validateURL (parses : String → Bool) (name : String) (u : String) : Option String :=
  if u = "" then some ("missing " ++ name)
  else if parses u = false then some ("invalid " ++ name)
  else none

/-- `config.validate` (config.go:178): the message of the error returned, `none` for
nil. -/
def validate (parses : String → Bool) (c : ConfigValues) : Option String :=
  if c.datasetInterval = 0 then some "dataset interval must be > 0"
  else if c.bundleInterval = 0 then some "bundle interval must be > 0"
  else if c.nodeInterval = 0 then some "node interval must be > 0"
  else if c.requestTimeout = 0 then some "request timeout must be > 0"
  else
    match validateURL parses "nodeDataURL" c.nodeDataURL with
    | some err => some err
    | none =>
      match validateURL parses "clusterDataURL" c.clusterDataURL with
      | some err => some err
      | none => if c.datasetDir = "" then some "missing datasetDir" else none

/-- A `url.ParseRequestURI` that accepts absolute `http` URLs like the one below and
nothing else: enough to run `validate` on a configuration that uses it. -/
def parsesLocalhost (u : String) : Bool :=
  u = "http://localhost:8080"

end Statspusher

/-! ## providers/datatrade/dataset.go : DatasetImport -/

namespace Datatrade

/-- `DatasetImportArgs` (dataset.go:17). -/
structure DatasetImportArgs where
  NFS : Bool
  Quota : Nat
  ReadOnly : Bool
  Redundancy : Nat
deriving DecidableEq, Repr

/-- The fields of `clusterconf.Dataset` that `DatasetImport` sets. -/
structure Dataset where
  ID : String
  NFS : Bool
  Quota : Nat
  ReadOnly : Bool
  Redundancy : Nat
deriving DecidableEq, Repr

/-- `DatasetImportResult` (dataset.go:25). -/
structure DatasetImportResult where
  Dataset : Dataset
  NodeID : String
deriving DecidableEq, Repr

/-- What `DatasetImport` reads of the request: the outcome of `req.UnmarshalArgs`
(`none` when it fails) and `req.StreamURL` (`none` for nil). -/
structure Request where
  args : Option DatasetImportArgs
  StreamURL : Option String
deriving DecidableEq, Repr

/-- The requests sent through the tracker, with what they carry. -/
inductive Call where
  | listNodes
  | zfsReceive (nodeID datasetID streamURL : String)
  | zfsSnapshot (nodeID datasetID : String)
  | updateDataset (dataset : Dataset)
deriving DecidableEq, Repr

/-- What the rest of the cluster answers during one `DatasetImport`: the id made by
`uuid.New`, the node picked by `datasetImportNode` (or its error), the error of
building the task URL, and the errors of the `zfs-receive`, `zfs-snapshot` and
`update-dataset` requests (`none` for nil). -/
structure Cluster where
  newID : String
  node : Except String String
  taskURLError : Option String
  receiveError : Option String
  snapshotError : Option String
  configError : Option String

/-- What `DatasetImport` returns (result and error) and the requests it sent, in
order. -/
structure Outcome where
  result : Option DatasetImportResult
  err : Option String
  calls : List Call
deriving DecidableEq, Repr

/-- `Provider.datasetImport` (dataset.go:91): its error and the request it sent. -/
def datasetImport (cl : Cluster) (nodeID datasetID streamURL : String) :
    Option String × List Call :=
  match cl.taskURLError with
  | some err => (some err, [])
  | none => (cl.receiveError, [Call.zfsReceive nodeID datasetID streamURL])

/-- `Provider.datasetSnapshot` (dataset.go:108). -/
def datasetSnapshot (cl : Cluster) (nodeID datasetID : String) : Option String × List Call :=
  match cl.taskURLError with
  | some err => (some err, [])
  | none => (cl.snapshotError, [Call.zfsSnapshot nodeID datasetID])

/-- `Provider.datasetConfig` (dataset.go:126). -/
def datasetConfig (cl : Cluster) (dataset : Dataset) : Option String × List Call :=
  (cl.configError, [Call.updateDataset dataset])

/-- `Provider.DatasetImport` (dataset.go:32). -/
def DatasetImport (cl : Cluster) (req : Request) : Outcome :=
  match req.args with
  | none => { result := none, err := some "unmarshal args", calls := [] }
  | some args =>
    if args.Redundancy = 0 then
      { result := none, err := some "missing arg: redundancy", calls := [] }
    else
      match req.StreamURL with
      | none => { result := none, err := some "missing request streamURL", calls := [] }
      | some streamURL =>
        let dataset : Dataset :=
          { ID := cl.newID, NFS := args.ReadOnly, Quota := args.Quota,
            ReadOnly := args.ReadOnly, Redundancy := args.Redundancy }
        match cl.node with
        | Except.error err => { result := none, err := some err, calls := [Call.listNodes] }
        | Except.ok nodeID =>
          match datasetImport cl nodeID dataset.ID streamURL with
          | (some err, sent) => { result := none, err := some err, calls := Call.listNodes :: sent }
          | (none, sent) =>
            let snap := if args.ReadOnly then datasetSnapshot cl nodeID dataset.ID else (none, [])
            match snap with
            | (some err, sent') =>
              { result := none, err := some err, calls := Call.listNodes :: (sent ++ sent') }
            | (none, sent') =>
              match datasetConfig cl dataset with
              | (err, sent'') =>
                { result := some { Dataset := dataset, NodeID := nodeID }, err := err,
                  calls := Call.listNodes :: (sent ++ sent' ++ sent'') }

end Datatrade

/-! ## providers/namespace/user.go : writeIDMapFile -/

namespace Namespace

/-- `IDMap` (user.go:22): id in container, id on host, length of the range. -/
structure IDMap where
  ID : Nat
  HostID : Nat
  Length : Nat
deriving DecidableEq, Repr

/-- The verb `%d` on a `uint64`: its decimal digits. -/
def formatUint (n : Nat) : List Char :=
  Nat.toDigits 10 n

/-- `fmt.Sprintf("%d %d %d", idMap.ID, idMap.HostID, idMap.Length)`. -/
def formatIDMap (m : IDMap) : List Char :=
  formatUint m.ID ++ ' ' :: (formatUint m.HostID ++ ' ' :: formatUint m.Length)

/-- The loop of user.go:58-60 from index `i` on: `content[i]` is assigned for each
mapping in turn. -/
def fillContent : Nat → List IDMap → List (List Char) → List (List Char)
  | _, [], content => content
  | i, m :: ms, content => fillContent (i + 1) ms (content.set i (formatIDMap m))

/-- Lines 57 to 60: `content` is made with one empty string per mapping, then
filled. -/
def makeContent (idMaps : List IDMap) : List (List Char) :=
  fillContent 0 idMaps (List.replicate idMaps.length [])

/-- `strings.Join(elems, sep)`: the empty string for no element, the element for one,
otherwise the first element followed by the separator and the element for each
further one. -/
def Join (elems : List (List Char)) (sep : List Char) : List Char :=
  match elems with
  | [] => []
  | [a] => a
  | a :: rest => rest.foldl (fun b s => b ++ sep ++ s) a

/-- The file that `os.OpenFile` opens: its content, and the number of bytes it
accepts before a `Write` fails (`none`: no limit). -/
structure MapFile where
  content : List Char
  room : Option Nat
deriving DecidableEq, Repr

/-- `fmt.Fprintln(mapFile, data)` on a file just truncated: the operand followed by
a newline is written; the file keeps what it accepts, and an error is returned
when that is not everything. -/
def Fprintln (f : MapFile) (data : List Char) : MapFile × Option String :=
  let text := data ++ ['\n']
  match f.room with
  | none => ({ f with content := text }, none)
  | some k =>
    if text.length ≤ k then ({ f with content := text }, none)
    else ({ f with content := text.take k }, some "write failed")

/-- `writeIDMapFile` (user.go:48). `fs` gives the file found at a path (`none`: the
open fails; the flags hold no `O_CREATE`). The result is the file as left, and
the error passed to `errors.Wrapv` (`none` for nil). -/
def writeIDMapFile (fs : String → Option MapFile) (path : String) (idMaps : List IDMap) :
    Option MapFile × Option String :=
  match fs path with
  | none => (none, some "open failed")
  | some mapFile =>
    let content := makeContent idMaps
    let data := Join content ['\n']
    match Fprintln { mapFile with content := [] } data with
    | (f, err) => (some f, err)

/-- The line of a mapping as the specification words it: id in container, id on
host and length of the range, in decimal, separated by single spaces. -/
def specLine (m : IDMap) : List Char :=
  (toString m.ID ++ " " ++ toString m.HostID ++ " " ++ toString m.Length).toList

/-- The text as the specification words it: the lines joined by newlines, followed
by one newline. -/
def specText (idMaps : List IDMap) : List Char :=
  List.intercalate ['\n'] (idMaps.map specLine) ++ ['\n']

/-- A file system with one empty map file, at `/proc/42/uid_map`. -/
def procFiles (path : String) : Option MapFile :=
  if path = "/proc/42/uid_map" then some { content := [], room := none } else none

end Namespace

end Cerana

/-! ## Theorems: makeEventReader -/

namespace Cerana

namespace KV

variable {κ ε : Type}

theorem step_of_exit (enc : Encoding κ ε) (s : Producer) (r : Recv κ ε) (x : Exit)
    (h : s.exit = some x) : step enc s r = s := by
  simp [step, h]

theorem foldl_step_of_exit (enc : Encoding κ ε) (tr : List (Recv κ ε)) (s : Producer)
    (x : Exit) (h : s.exit = some x) : tr.foldl (step enc) s = s := by
  induction tr with
  | nil => rfl
  | cons r rs ih => simp [List.foldl, step_of_exit enc s r x h, ih]

theorem emit_of_marshal (enc : Encoding κ ε) (s : Producer) (e : Event κ ε)
    (data : List Char) (hm : marshal enc e = some data) (hb : s.pipe.budget = none) :
    emit enc s e =
      { s with pipe := { s.pipe with delivered := s.pipe.delivered ++ data },
               writes := s.writes ++ [data] } := by
  simp [emit, hm, Pipe.write, hb]

theorem step_of_record (enc : Encoding κ ε) (s : Producer) (r : Recv κ ε)
    (data : List Char) (hr : recordOf enc r = some data) (hx : s.exit = none)
    (hb : s.pipe.budget = none) :
    step enc s r =
      { s with pipe := { s.pipe with delivered := s.pipe.delivered ++ data },
               writes := s.writes ++ [data] } := by
  cases r with
  | event ev =>
    have hm : marshal enc { Event := ev, Error := none } = some data := hr
    simp [step, hx, emit_of_marshal enc s _ data hm hb]
  | error err =>
    have hm : marshal enc { Event := enc.zeroEvent, Error := err } = some data := hr
    simp [step, hx, emit_of_marshal enc s _ data hm hb]
  | eventsClosed => simp [recordOf, recordObject] at hr
  | errsClosed => simp [recordOf, recordObject] at hr

/-- Running the loop from a running state over receipts that all yield a record,
with a consumer that keeps reading. -/
theorem foldl_step_records (enc : Encoding κ ε) (tr : List (Recv κ ε)) :
    ∀ s : Producer, s.exit = none → s.pipe.budget = none →
      (∀ r ∈ tr, (recordOf enc r).isSome = true) →
      tr.foldl (step enc) s =
        { s with pipe := { s.pipe with
                           delivered := s.pipe.delivered ++ (tr.filterMap (recordOf enc)).flatten },
                 writes := s.writes ++ tr.filterMap (recordOf enc) } := by
  induction tr with
  | nil => intro s _ _ _; simp
  | cons r rs ih =>
    intro s hx hb hall
    have hr : (recordOf enc r).isSome = true := hall r (List.mem_cons_self _ _)
    obtain ⟨data, hd⟩ := Option.isSome_iff_exists.mp hr
    have hrs : ∀ r' ∈ rs, (recordOf enc r').isSome = true :=
      fun r' h' => hall r' (List.mem_cons_of_mem _ h')
    rw [List.foldl_cons, step_of_record enc s r data hd hx hb]
    have hstep := ih { s with pipe := { s.pipe with delivered := s.pipe.delivered ++ data },
                              writes := s.writes ++ [data] } hx hb hrs
    rw [hstep]
    simp [List.filterMap_cons, hd, List.append_assoc]

theorem step_closed (enc : Encoding κ ε) (s : Producer) (r : Recv κ ε)
    (hx : s.exit = none) (hr : r = Recv.eventsClosed ∨ r = Recv.errsClosed) :
    step enc s r = s.leave Exit.sourceClosed := by
  rcases hr with h | h <;> subst h <;> simp [step, hx]

theorem renderObject_head (ms : List Member) : (renderObject ms).head? = some '\x7b' := by
  simp [renderObject]

theorem renderObject_getLast (ms : List Member) : (renderObject ms).getLast? = some '\x7d' := by
  have h : renderObject ms = ('\x7b' :: joinMembers ms) ++ ['\x7d'] := by simp [renderObject]
  rw [h, List.getLast?_append]
  simp

/-- The goroutine after receipts that all yield a record, with a consumer that
keeps reading. -/
theorem makeEventReader_running (enc : Encoding κ ε) (tr : List (Recv κ ε))
    (h : ∀ r ∈ tr, (recordOf enc r).isSome = true) :
    makeEventReader enc none tr =
      { pipe := { delivered := (tr.filterMap (recordOf enc)).flatten, budget := none,
                  writeClosed := false, readClosed := false },
        writes := tr.filterMap (recordOf enc), exit := none } := by
  have hrun := foldl_step_records enc tr (Producer.init none) rfl rfl h
  unfold makeEventReader
  rw [hrun]
  simp [Producer.init]

/-- The goroutine after such receipts followed by the closure of a channel and
anything else. -/
theorem makeEventReader_closed (enc : Encoding κ ε) (tr : List (Recv κ ε))
    (h : ∀ r ∈ tr, (recordOf enc r).isSome = true) (c : Recv κ ε)
    (hc : c = Recv.eventsClosed ∨ c = Recv.errsClosed) (rest : List (Recv κ ε)) :
    makeEventReader enc none (tr ++ c :: rest) =
      { pipe := { delivered := (tr.filterMap (recordOf enc)).flatten, budget := none,
                  writeClosed := true, readClosed := true },
        writes := tr.filterMap (recordOf enc), exit := some Exit.sourceClosed } := by
  have hrun := makeEventReader_running enc tr h
  unfold makeEventReader at hrun ⊢
  rw [List.foldl_append, List.foldl_cons, hrun, step_closed enc _ c rfl hc]
  rw [foldl_step_of_exit enc rest _ Exit.sourceClosed rfl]
  simp [Producer.leave, Pipe.close]

theorem recordOf_event (enc : Encoding κ ε) (ev : κ) :
    recordOf enc (Recv.event ev) = marshal enc { Event := ev, Error := none } := rfl

theorem marshal_event_isSome (enc : Encoding κ ε) (ev : κ) :
    (marshal enc { Event := ev, Error := none }).isSome = true := by
  simp [marshal, eventObject, encodeError]

theorem step_of_record_budget (enc : Encoding κ ε) (s : Producer) (r : Recv κ ε)
    (data : List Char) (k : Nat) (hr : recordOf enc r = some data) (hx : s.exit = none)
    (hb : s.pipe.budget = some k) (hfit : data.length ≤ k) :
    step enc s r =
      { s with pipe := { s.pipe with delivered := s.pipe.delivered ++ data,
                                     budget := some (k - data.length) },
               writes := s.writes ++ [data] } := by
  cases r with
  | event ev =>
    have hm : marshal enc { Event := ev, Error := none } = some data := hr
    simp [step, hx, emit, hm, Pipe.write, hb, hfit]
  | error err =>
    have hm : marshal enc { Event := enc.zeroEvent, Error := err } = some data := hr
    simp [step, hx, emit, hm, Pipe.write, hb, hfit]
  | eventsClosed => simp [recordOf, recordObject] at hr
  | errsClosed => simp [recordOf, recordObject] at hr

theorem step_write_failed (enc : Encoding κ ε) (s : Producer) (r : Recv κ ε)
    (data : List Char) (k : Nat) (hr : recordOf enc r = some data) (hx : s.exit = none)
    (hb : s.pipe.budget = some k) (hk : k < data.length) :
    step enc s r =
      { pipe := { delivered := s.pipe.delivered ++ data.take k, budget := some 0,
                  writeClosed := true, readClosed := true },
        writes := s.writes, exit := some Exit.writeFailed } := by
  have hnot : ¬ data.length ≤ k := Nat.not_le.mpr hk
  cases r with
  | event ev =>
    have hm : marshal enc { Event := ev, Error := none } = some data := hr
    simp [step, hx, emit, hm, Pipe.write, hb, hnot, Producer.leave, Pipe.close]
  | error err =>
    have hm : marshal enc { Event := enc.zeroEvent, Error := err } = some data := hr
    simp [step, hx, emit, hm, Pipe.write, hb, hnot, Producer.leave, Pipe.close]
  | eventsClosed => simp [recordOf, recordObject] at hr
  | errsClosed => simp [recordOf, recordObject] at hr

theorem step_marshal_failed (enc : Encoding κ ε) (s : Producer) (e : ε)
    (hx : s.exit = none) (he : enc.errorValue e = none) :
    step enc s (Recv.error (some e)) = s.leave Exit.marshalFailed := by
  have hm : marshal enc { Event := enc.zeroEvent, Error := some e } = none := by
    simp [marshal, eventObject, encodeError, he]
  simp [step, hx, emit, hm]

theorem foldl_step_records_budget (enc : Encoding κ ε) (tr : List (Recv κ ε)) :
    ∀ (s : Producer) (k : Nat), s.exit = none → s.pipe.budget = some k →
      (∀ r ∈ tr, (recordOf enc r).isSome = true) →
      (tr.filterMap (recordOf enc)).flatten.length ≤ k →
      tr.foldl (step enc) s =
        { s with pipe := { s.pipe with
                           delivered := s.pipe.delivered ++ (tr.filterMap (recordOf enc)).flatten,
                           budget := some (k - (tr.filterMap (recordOf enc)).flatten.length) },
                 writes := s.writes ++ tr.filterMap (recordOf enc) } := by
  induction tr with
  | nil => intro s k _ hb _ _; cases s with | mk pipe writes exit => cases pipe; simp_all
  | cons r rs ih =>
    intro s k hx hb hall hfit
    have hr : (recordOf enc r).isSome = true := hall r (List.mem_cons_self _ _)
    obtain ⟨data, hd⟩ := Option.isSome_iff_exists.mp hr
    have hrs : ∀ r' ∈ rs, (recordOf enc r').isSome = true :=
      fun r' h' => hall r' (List.mem_cons_of_mem _ h')
    have hlen : data.length + (rs.filterMap (recordOf enc)).flatten.length ≤ k := by
      simpa [List.filterMap_cons, hd] using hfit
    rw [List.foldl_cons, step_of_record_budget enc s r data k hd hx hb (by omega)]
    have hstep := ih
      { s with pipe := { s.pipe with delivered := s.pipe.delivered ++ data,
                                     budget := some (k - data.length) },
               writes := s.writes ++ [data] } (k - data.length) hx rfl hrs (by omega)
    rw [hstep]
    simp [List.filterMap_cons, hd, List.append_assoc, Nat.sub_sub]

/-- The goroutine after receipts that all yield a record, with a consumer that reads
at least as many bytes as they hold. -/
theorem makeEventReader_running_budget (enc : Encoding κ ε) (tr : List (Recv κ ε)) (k : Nat)
    (h : ∀ r ∈ tr, (recordOf enc r).isSome = true)
    (hfit : (tr.filterMap (recordOf enc)).flatten.length ≤ k) :
    makeEventReader enc (some k) tr =
      { pipe := { delivered := (tr.filterMap (recordOf enc)).flatten,
                  budget := some (k - (tr.filterMap (recordOf enc)).flatten.length),
                  writeClosed := false, readClosed := false },
        writes := tr.filterMap (recordOf enc), exit := none } := by
  have hrun := foldl_step_records_budget enc tr (Producer.init (some k)) k rfl rfl h hfit
  unfold makeEventReader
  rw [hrun]
  simp [Producer.init]

theorem step_exit_ne_shortWrite (enc : Encoding κ ε) (s : Producer) (r : Recv κ ε)
    (h : s.exit ≠ some Exit.shortWrite) : (step enc s r).exit ≠ some Exit.shortWrite := by
  have hemit : ∀ e : Event κ ε, s.exit = none →
      (emit enc s e).exit ≠ some Exit.shortWrite := by
    intro e hx
    unfold emit
    cases hm : marshal enc e with
    | none => simp [Producer.leave]
    | some data =>
      cases hb : s.pipe.budget with
      | none => simp [Pipe.write, hb, hx]
      | some k =>
        by_cases hfit : data.length ≤ k
        · simp [Pipe.write, hb, hfit, hx]
        · simp [Pipe.write, hb, hfit, Producer.leave]
  cases hx : s.exit with
  | some x => rw [step_of_exit enc s r x hx, hx]; rw [hx] at h; exact h
  | none =>
    cases r with
    | event ev => simpa [step, hx] using hemit _ hx
    | error err => simpa [step, hx] using hemit _ hx
    | eventsClosed => simp [step, hx, Producer.leave]
    | errsClosed => simp [step, hx, Producer.leave]

theorem foldl_step_exit_ne_shortWrite (enc : Encoding κ ε) (tr : List (Recv κ ε)) :
    ∀ s : Producer, s.exit ≠ some Exit.shortWrite →
      (tr.foldl (step enc) s).exit ≠ some Exit.shortWrite := by
  induction tr with
  | nil => intro s h; exact h
  | cons r rs ih => intro s h; exact ih _ (step_exit_ne_shortWrite enc s r h)

/-- C1 (as stated, refuted): after the record of an error received from `errs` has
been written the goroutine is still in its loop with the output open, and it
goes on writing: here the error record is followed by an event record and by a
second error record. -/
theorem makeEventReader_error_not_last :
    (makeEventReader keyEncoding none [Recv.error (some "boom")]).exit = none ∧
    (makeEventReader keyEncoding none [Recv.error (some "boom")]).pipe.writeClosed = false ∧
    (makeEventReader keyEncoding none
        [Recv.error (some "boom"), Recv.event "k1", Recv.error (some "again"),
          Recv.eventsClosed]).writes =
      ["\x7b\"Key\":\"\",\"Error\":\"boom\"\x7d".toList,
       "\x7b\"Key\":\"k1\",\"Error\":null\x7d".toList,
       "\x7b\"Key\":\"\",\"Error\":\"again\"\x7d".toList] := by
  decide

/-- C1 (amended): for every sequence of items received from `events` and `errs` that
all marshal, read by a consumer that keeps reading, the goroutine writes one
record per item in the order received, error records included wherever they
occur, and is then still running with its output open. It writes nothing more
and its output is closed once it receives the closure of either channel, once
`json.Marshal` fails on an item, or once a write fails because the consumer
has closed its end. It never leaves through the check of the count written. -/
theorem makeEventReader_stops_on_close_or_failure (enc : Encoding κ ε)
    (tr : List (Recv κ ε)) (h : ∀ r ∈ tr, (recordOf enc r).isSome = true) :
    ((makeEventReader enc none tr).writes = tr.filterMap (recordOf enc) ∧
      (makeEventReader enc none tr).exit = none ∧
      (makeEventReader enc none tr).pipe.writeClosed = false) ∧
    (∀ c : Recv κ ε, c = Recv.eventsClosed ∨ c = Recv.errsClosed →
      ∀ rest : List (Recv κ ε),
        (makeEventReader enc none (tr ++ c :: rest)).writes = tr.filterMap (recordOf enc) ∧
        (makeEventReader enc none (tr ++ c :: rest)).exit = some Exit.sourceClosed ∧
        (makeEventReader enc none (tr ++ c :: rest)).pipe.writeClosed = true) ∧
    (∀ e : ε, enc.errorValue e = none → ∀ rest : List (Recv κ ε),
        (makeEventReader enc none (tr ++ Recv.error (some e) :: rest)).writes =
          tr.filterMap (recordOf enc) ∧
        (makeEventReader enc none (tr ++ Recv.error (some e) :: rest)).exit =
          some Exit.marshalFailed ∧
        (makeEventReader enc none (tr ++ Recv.error (some e) :: rest)).pipe.writeClosed =
          true) ∧
    (∀ (k : Nat) (c : Recv κ ε) (data : List Char),
      (tr.filterMap (recordOf enc)).flatten.length ≤ k → recordOf enc c = some data →
      k - (tr.filterMap (recordOf enc)).flatten.length < data.length →
      ∀ rest : List (Recv κ ε),
        (makeEventReader enc (some k) (tr ++ c :: rest)).writes =
          tr.filterMap (recordOf enc) ∧
        (makeEventReader enc (some k) (tr ++ c :: rest)).exit = some Exit.writeFailed ∧
        (makeEventReader enc (some k) (tr ++ c :: rest)).pipe.writeClosed = true ∧
        (makeEventReader enc (some k) (tr ++ c :: rest)).pipe.delivered =
          (tr.filterMap (recordOf enc)).flatten ++
            data.take (k - (tr.filterMap (recordOf enc)).flatten.length)) ∧
    (∀ (budget : Option Nat) (tr' : List (Recv κ ε)),
      (makeEventReader enc budget tr').exit ≠ some Exit.shortWrite) := by
  refine ⟨?_, ?_, ?_, ?_, ?_⟩
  · rw [makeEventReader_running enc tr h]
    exact ⟨rfl, rfl, rfl⟩
  · intro c hc rest
    rw [makeEventReader_closed enc tr h c hc rest]
    exact ⟨rfl, rfl, rfl⟩
  · intro e he rest
    have hrun := makeEventReader_running enc tr h
    unfold makeEventReader at hrun ⊢
    rw [List.foldl_append, List.foldl_cons, hrun, step_marshal_failed enc _ e rfl he,
      foldl_step_of_exit enc rest _ Exit.marshalFailed rfl]
    exact ⟨rfl, rfl, rfl⟩
  · intro k c data hfit hc hk rest
    have hrun := makeEventReader_running_budget enc tr k h hfit
    unfold makeEventReader at hrun ⊢
    rw [List.foldl_append, List.foldl_cons, hrun,
      step_write_failed enc _ c data _ hc rfl rfl hk,
      foldl_step_of_exit enc rest _ Exit.writeFailed rfl]
    exact ⟨rfl, rfl, rfl, rfl⟩
  · intro budget tr'
    exact foldl_step_exit_ne_shortWrite enc tr' _ (by simp [Producer.init])

theorem makeEventReader_stops_on_close_or_failure_witness :
    (makeEventReader keyEncoding none
        [Recv.event "k1", Recv.error (some "boom"), Recv.event "k2"]).writes =
      [Recv.event "k1", Recv.error (some "boom"), Recv.event "k2"].filterMap
        (recordOf keyEncoding) ∧
    (makeEventReader keyEncoding (some 30)
        ([Recv.event "k1"] ++ Recv.event "k2" :: [Recv.event "k3"])).exit =
      some Exit.writeFailed :=
  ⟨(makeEventReader_stops_on_close_or_failure keyEncoding
      [Recv.event "k1", Recv.error (some "boom"), Recv.event "k2"] (by decide)).1.1,
    ((makeEventReader_stops_on_close_or_failure keyEncoding [Recv.event "k1"]
      (by decide)).2.2.2.1 30 (Recv.event "k2") _ (by decide) rfl (by decide)
      [Recv.event "k3"]).2.1⟩

/-- C2: for every list of events received from `events`, followed by the closure of
`events`, every `json.Marshal` succeeds and the consumer reads exactly the
concatenation of the serialized records in the order received, after which the
output is closed. -/
theorem makeEventReader_events_in_order (enc : Encoding κ ε) (es : List κ) :
    (∀ ev ∈ es, (marshal enc { Event := ev, Error := none }).isSome = true) ∧
    (makeEventReader enc none (es.map Recv.event ++ [Recv.eventsClosed])).pipe.delivered =
      (es.filterMap fun ev => marshal enc { Event := ev, Error := none }).flatten ∧
    (makeEventReader enc none (es.map Recv.event ++ [Recv.eventsClosed])).writes =
      es.filterMap (fun ev => marshal enc { Event := ev, Error := none }) ∧
    (makeEventReader enc none (es.map Recv.event ++ [Recv.eventsClosed])).pipe.writeClosed =
      true := by
  have hall : ∀ r ∈ es.map (Recv.event : κ → Recv κ ε), (recordOf enc r).isSome = true := by
    intro r hr
    obtain ⟨ev, _, rfl⟩ := List.mem_map.mp hr
    exact marshal_event_isSome enc ev
  have hmap : (es.map (Recv.event : κ → Recv κ ε)).filterMap (recordOf enc) =
      es.filterMap fun ev => marshal enc { Event := ev, Error := none } := by
    rw [List.filterMap_map]
    rfl
  rw [makeEventReader_closed enc _ hall Recv.eventsClosed (Or.inl rfl) [], hmap]
  exact ⟨fun ev _ => marshal_event_isSome enc ev, rfl, rfl, rfl⟩

/-- C3 (as stated, refuted): the record written for an event is its JSON object
alone; no line terminator follows it, so the output of one record holds no
newline at all. -/
theorem makeEventReader_record_without_newline :
    (makeEventReader keyEncoding none [Recv.event "k1"]).writes.length = 1 ∧
    (makeEventReader keyEncoding none [Recv.event "k1"]).pipe.delivered =
      "\x7b\"Key\":\"k1\",\"Error\":null\x7d".toList ∧
    (makeEventReader keyEncoding none [Recv.event "k1"]).pipe.delivered.count '\n' = 0 := by
  decide

theorem mem_joinMembers (ms : List Member) (c : Char) (h : c ∈ joinMembers ms) :
    c = ',' ∨ ∃ m ∈ ms, c ∈ m.text := by
  induction ms with
  | nil => simp [joinMembers] at h
  | cons m rest ih =>
    cases rest with
    | nil => exact Or.inr ⟨m, List.mem_cons_self _ _, by simpa [joinMembers] using h⟩
    | cons m' rest' =>
      simp only [joinMembers, List.mem_append, List.mem_cons] at h
      rcases h with h | h | h
      · exact Or.inr ⟨m, List.mem_cons_self _ _, h⟩
      · exact Or.inl h
      · rcases ih h with h' | ⟨x, hx, hc⟩
        · exact Or.inl h'
        · exact Or.inr ⟨x, List.mem_cons_of_mem _ hx, hc⟩

/-- C3 (amended): every record that the goroutine writes is exactly the JSON object of
the event or error received, from its opening brace to its closing brace, with
no line terminator: after n items that all marshal the consumer has read the
concatenation of the n objects of these items, in order, and nothing else; when
no member of these objects holds a newline, the stream holds none. -/
theorem makeEventReader_records_are_objects (enc : Encoding κ ε) (tr : List (Recv κ ε))
    (h : ∀ r ∈ tr, (recordOf enc r).isSome = true) :
    (makeEventReader enc none tr).writes = tr.filterMap (recordOf enc) ∧
    (makeEventReader enc none tr).writes.length = tr.length ∧
    (makeEventReader enc none tr).pipe.delivered = (tr.filterMap (recordOf enc)).flatten ∧
    (∀ r ∈ tr, ∃ ms : List Member, recordObject enc r = some ms ∧
      recordOf enc r = some ('\x7b' :: (joinMembers ms ++ ['\x7d']))) ∧
    ((∀ r ∈ tr, ∀ ms ∈ recordObject enc r, ∀ m ∈ ms, '\n' ∉ m.text) →
      '\n' ∉ (makeEventReader enc none tr).pipe.delivered) := by
  have hobj : ∀ r ∈ tr, ∃ ms : List Member, recordObject enc r = some ms ∧
      recordOf enc r = some ('\x7b' :: (joinMembers ms ++ ['\x7d'])) := by
    intro r hr
    obtain ⟨data, hd⟩ := Option.isSome_iff_exists.mp (h r hr)
    obtain ⟨ms, hms, _⟩ := Option.map_eq_some'.mp hd
    exact ⟨ms, hms, by simp [recordOf, hms, renderObject]⟩
  rw [makeEventReader_running enc tr h]
  refine ⟨rfl, ?_, rfl, hobj, ?_⟩
  · have hlen : ∀ l : List (Recv κ ε), (∀ r ∈ l, (recordOf enc r).isSome = true) →
        (l.filterMap (recordOf enc)).length = l.length := by
      intro l
      induction l with
      | nil => intro _; rfl
      | cons r rs ih =>
        intro hl
        obtain ⟨d, hd⟩ := Option.isSome_iff_exists.mp (hl r (List.mem_cons_self _ _))
        simp [List.filterMap_cons, hd, ih fun r' h' => hl r' (List.mem_cons_of_mem _ h')]
    exact hlen tr h
  · intro hclean hmem
    obtain ⟨data, hdata, hc⟩ := List.mem_flatten.mp hmem
    obtain ⟨r, hr, hrec⟩ := List.mem_filterMap.mp hdata
    obtain ⟨ms, hms, hrender⟩ := hobj r hr
    rw [hrender] at hrec
    have hdata' : data = '\x7b' :: (joinMembers ms ++ ['\x7d']) := (Option.some.inj hrec).symm
    rw [hdata'] at hc
    simp only [List.mem_cons, List.mem_append, List.mem_singleton, List.not_mem_nil,
      or_false] at hc
    rcases hc with hc | hc | hc
    · exact absurd hc (by decide)
    · rcases mem_joinMembers ms _ hc with hcomma | ⟨m, hm, hin⟩
      · exact absurd hcomma (by decide)
      · exact hclean r hr ms hms m hm hin
    · exact absurd hc (by decide)

theorem makeEventReader_records_are_objects_witness :
    (makeEventReader keyEncoding none [Recv.event "k1", Recv.error (some "boom")]).pipe.delivered =
      ([Recv.event "k1", Recv.error (some "boom")].filterMap (recordOf keyEncoding)).flatten ∧
    '\n' ∉ (makeEventReader keyEncoding none
      [Recv.event "k1", Recv.error (some "boom")]).pipe.delivered :=
  ⟨(makeEventReader_records_are_objects keyEncoding
      [Recv.event "k1", Recv.error (some "boom")] (by decide)).2.2.1,
    (makeEventReader_records_are_objects keyEncoding
      [Recv.event "k1", Recv.error (some "boom")] (by decide)).2.2.2.2 (by decide)⟩

/-- C4 (as stated, refuted): the record written for an item received from `events`
has a member named `Error` too (with value `null`), and a nil error received
from `errs` gives the very record of the zero event. -/
theorem recordObject_event_has_error_field :
    recordObject keyEncoding (Recv.event "k1") =
      some [{ name := "Key", text := "\"Key\":\"k1\"".toList },
            { name := "Error", text := "\"Error\":null".toList }] ∧
    (recordObject keyEncoding (Recv.event "k1")).map hasErrorField = some true ∧
    recordObject keyEncoding (Recv.error none) = recordObject keyEncoding (Recv.event "") := by
  decide

theorem errorMember_injective {v w : List Char} (h : errorMember v = errorMember w) : v = w := by
  have ht : (errorMember v).text = (errorMember w).text := by rw [h]
  exact List.append_cancel_left ht

theorem hasErrorField_filter (l : List Member) :
    hasErrorField (l.filter fun m => m.name ≠ "Error") = false := by
  simp [hasErrorField]

theorem filter_error_of_not_hasErrorField (l : List Member) (hl : hasErrorField l = false) :
    (l.filter fun m => m.name = "Error") = [] := by
  simp only [hasErrorField, List.any_eq_false] at hl
  exact List.filter_eq_nil_iff.mpr fun m hm => by simpa using hl m hm

theorem eventObject_shape (enc : Encoding κ ε) (e : Event κ ε) (ms : List Member)
    (h : eventObject enc e = some ms) :
    ∃ v : List Char, encodeError enc e.Error = some v ∧
      ms = (enc.eventMembers e.Event).filter (fun m => m.name ≠ "Error") ++ [errorMember v] := by
  obtain ⟨v, hv, rfl⟩ := Option.map_eq_some'.mp h
  exact ⟨v, hv, rfl⟩

/-- C4 (amended): every record has exactly one member named `Error`, written last. Its
value is `null` for an item received from `events` (and for a nil error
received from `errs`), and the JSON encoding of the error value for a non-nil
error received from `errs`. So a record whose `Error` is not `null` comes from
`errs`, and the record of a non-nil error differs from every event record when
the error does not encode as `null`: the two kinds are told apart by a
non-null `Error`, not by the presence of the member. -/
theorem recordObject_error_member (enc : Encoding κ ε) :
    (∀ (r : Recv κ ε) (ms : List Member), recordObject enc r = some ms →
      ∃ v : List Char, ms.getLast? = some (errorMember v) ∧
        (ms.filter fun m => m.name = "Error") = [errorMember v] ∧
        (v ≠ "null".toList → ∃ e : ε, r = Recv.error (some e) ∧ enc.errorValue e = some v)) ∧
    (∀ ev : κ, ∃ ms : List Member,
      recordObject enc (Recv.event ev) = some (ms ++ [errorMember "null".toList]) ∧
      hasErrorField ms = false) ∧
    (∀ (e : ε) (v : List Char), enc.errorValue e = some v → ∃ ms : List Member,
      recordObject enc (Recv.error (some e)) = some (ms ++ [errorMember v]) ∧
      hasErrorField ms = false) ∧
    (∀ (e : ε) (v : List Char) (ev : κ), enc.errorValue e = some v → v ≠ "null".toList →
      recordObject enc (Recv.error (some e)) ≠ recordObject enc (Recv.event ev)) ∧
    recordObject enc (Recv.error none) = recordObject enc (Recv.event enc.zeroEvent) := by
  have hobj : ∀ (e : Event κ ε) (ms : List Member), eventObject enc e = some ms →
      ∃ v : List Char, encodeError enc e.Error = some v ∧
        ms.getLast? = some (errorMember v) ∧
        (ms.filter fun m => m.name = "Error") = [errorMember v] := by
    intro e ms hms
    obtain ⟨v, hv, rfl⟩ := eventObject_shape enc e ms hms
    refine ⟨v, hv, by simp, ?_⟩
    rw [List.filter_append, filter_error_of_not_hasErrorField _ (hasErrorField_filter _)]
    simp [errorMember]
  refine ⟨?_, ?_, ?_, ?_, rfl⟩
  · intro r ms hms
    cases r with
    | event ev =>
      obtain ⟨v, hv, hlast, hfil⟩ := hobj _ ms hms
      have hnull : v = "null".toList := by
        simpa [encodeError] using hv.symm
      exact ⟨v, hlast, hfil, fun hne => absurd hnull hne⟩
    | error err =>
      obtain ⟨v, hv, hlast, hfil⟩ := hobj _ ms hms
      cases err with
      | none =>
        have hnull : v = "null".toList := by
          simpa [encodeError] using hv.symm
        exact ⟨v, hlast, hfil, fun hne => absurd hnull hne⟩
      | some e => exact ⟨v, hlast, hfil, fun _ => ⟨e, rfl, hv⟩⟩
    | eventsClosed => simp [recordObject] at hms
    | errsClosed => simp [recordObject] at hms
  · intro ev
    exact ⟨_, rfl, hasErrorField_filter _⟩
  · intro e v hv
    refine ⟨(enc.eventMembers enc.zeroEvent).filter (fun m => m.name ≠ "Error"), ?_,
      hasErrorField_filter _⟩
    simp [recordObject, eventObject, encodeError, hv]
  · intro e v ev hv hne heq
    have h1 : recordObject enc (Recv.error (some e)) =
        some ((enc.eventMembers enc.zeroEvent).filter (fun m => m.name ≠ "Error") ++
          [errorMember v]) := by
      simp [recordObject, eventObject, encodeError, hv]
    have h2 : recordObject enc (Recv.event ev) =
        some ((enc.eventMembers ev).filter (fun m => m.name ≠ "Error") ++
          [errorMember "null".toList]) := rfl
    rw [h1, h2] at heq
    have hlists := Option.some.inj heq
    have hlast := (List.append_inj' hlists rfl).2
    exact hne (errorMember_injective (List.singleton_inj.mp hlast))

theorem recordObject_error_member_witness :
    (∃ ms : List Member,
      recordObject keyEncoding (Recv.error (some "boom")) =
        some (ms ++ [errorMember "\"boom\"".toList]) ∧
      hasErrorField ms = false) ∧
    recordObject keyEncoding (Recv.error (some "boom")) ≠
      recordObject keyEncoding (Recv.event "k1") :=
  ⟨(recordObject_error_member keyEncoding).2.2.1 "boom" "\"boom\"".toList (by decide),
    (recordObject_error_member keyEncoding).2.2.2.1 "boom" "\"boom\"".toList "k1"
      (by decide) (by decide)⟩

end KV

end Cerana

/-! ## Theorems: KV.stop -/

namespace Cerana

namespace KV

theorem ChanMap.get_eq_some {m : ChanMap} {cookie ch : Nat} (h : m.Get cookie = some ch) :
    (cookie, ch) ∈ m.chans := by
  unfold ChanMap.Get at h
  obtain ⟨e, he, rfl⟩ := Option.map_eq_some'.mp h
  have hmem := List.mem_of_find?_eq_some he
  have hkey : e.1 = cookie := by simpa using List.find?_some he
  rw [← hkey]
  exact hmem

theorem ChanMap.signalClosed_wellFormed (m : ChanMap) (ch : Nat) (h : m.WellFormed) :
    (m.signalClosed ch).WellFormed := by
  refine ⟨?_, ?_⟩
  · exact (h.1.sublist ((List.filter_sublist _).map Prod.fst))
  · intro e he
    obtain ⟨hmem, hne⟩ := List.mem_filter.mp he
    simp only [ChanMap.signalClosed, List.mem_cons, not_or]
    exact ⟨by simpa using hne, h.2 e hmem⟩

theorem ChanMap.get_signalClosed (m : ChanMap) (cookie ch : Nat) (h : m.WellFormed)
    (hget : m.Get cookie = some ch) : (m.signalClosed ch).Get cookie = none := by
  have hmem := ChanMap.get_eq_some hget
  unfold ChanMap.Get
  rw [Option.map_eq_none', List.find?_eq_none]
  intro e he
  obtain ⟨hin, hne⟩ := List.mem_filter.mp he
  intro hkey
  have hkey' : e.1 = cookie := by simpa using hkey
  have heq : e = (cookie, ch) :=
    List.inj_on_of_nodup_map h.1 hin hmem (by simpa using hkey')
  subst heq
  simp at hne

/-- C5: from a registry state that the registry operations reach, a `stop` with a
non-zero cookie returns (it does not panic), and a second `stop` with the same
cookie returns the unknown-cookie error and leaves the registry as it is: it
closes nothing. `Get` itself removes nothing; the entry is gone because the
first call closed its signal. -/
theorem stop_twice_reports_unknown_cookie (m : ChanMap) (cookie : Nat) (hc : cookie ≠ 0)
    (hwf : m.WellFormed) :
    ∃ (err : Option StopError) (m₁ : ChanMap),
      stop m (some cookie) = StopResult.returned err m₁ ∧ m₁.WellFormed ∧
      stop m₁ (some cookie) = StopResult.returned (some StopError.unknownCookie) m₁ := by
  cases hget : m.Get cookie with
  | none =>
    exact ⟨some StopError.unknownCookie, m, by simp [stop, hc, hget], hwf,
      by simp [stop, hc, hget]⟩
  | some ch =>
    have hopen : ch ∉ m.closed := hwf.2 _ (ChanMap.get_eq_some hget)
    exact ⟨none, m.signalClosed ch, by simp [stop, hc, hget, hopen],
      ChanMap.signalClosed_wellFormed m ch hwf,
      by simp [stop, hc, ChanMap.get_signalClosed m cookie ch hwf hget]⟩

theorem stop_twice_reports_unknown_cookie_witness :
    stop { chans := [(7, 0)], closed := [] } (some 7) =
      StopResult.returned none { chans := [], closed := [0] } ∧
    ∃ (err : Option StopError) (m₁ : ChanMap),
      stop { chans := [(7, 0)], closed := [] } (some 7) = StopResult.returned err m₁ ∧
      m₁.WellFormed ∧
      stop m₁ (some 7) = StopResult.returned (some StopError.unknownCookie) m₁ :=
  ⟨by decide,
    stop_twice_reports_unknown_cookie { chans := [(7, 0)], closed := [] } 7 (by decide)
      (by decide)⟩

end KV

/-! ## Theorems: executeRequests -/

namespace Service

/-- C6 (code bug): when `acomm.Send` fails for a request that has just been tracked,
`executeRequests` returns the error and the request is still in the tracker
table. -/
theorem executeRequests_send_failure_stays_tracked :
    executeRequests 5 World.empty [("r1", { sendFails := true, replyError := none })] =
      Outcome.returned (some "send failed")
        { tracked := [("r1", 0)], chans := [{ buf := [], closed := true }] } ∧
    World.isTracked { tracked := [("r1", 0)], chans := [{ buf := [], closed := true }] } "r1" =
      true := by
  decide

/-- C7 (code bug): after `executeRequests` has returned with the error of a failed
`acomm.Send`, the completion channel of the request is closed while the
request is still tracked; the timeout that later resolves it invokes the
installed handler, which sends on the closed channel and panics. -/
theorem executeRequests_late_timeout_panics :
    ∃ w : World,
      executeRequests 5 World.empty [("r1", { sendFails := true, replyError := none })] =
        Outcome.returned (some "send failed") w ∧
      Resolve w { ID := "r1", Error := some "timeout" } = Resolution.panicked :=
  ⟨{ tracked := [("r1", 0)], chans := [{ buf := [], closed := true }] }, by decide, by decide⟩

end Service

end Cerana

/-! ## Theorems: canonicalFlagName -/

namespace Cerana

namespace Statspusher

theorem isSpace_space : isSpace ' ' = true := by decide

theorem isFlagSep_space : isFlagSep ' ' = true := by decide

theorem replaceFlagSepFrom_cons_sep_true (c : Char) (cs : List Char) (h : isFlagSep c = true) :
    replaceFlagSepFrom true (c :: cs) = replaceFlagSepFrom true cs := by
  simp [replaceFlagSepFrom, h]

theorem replaceFlagSepFrom_cons_sep_false (c : Char) (cs : List Char)
    (h : isFlagSep c = true) :
    replaceFlagSepFrom false (c :: cs) = ' ' :: replaceFlagSepFrom true cs := by
  simp [replaceFlagSepFrom, h]

theorem replaceFlagSepFrom_cons_word (b : Bool) (c : Char) (cs : List Char)
    (h : isFlagSep c = false) :
    replaceFlagSepFrom b (c :: cs) = c :: replaceFlagSepFrom false cs := by
  simp [replaceFlagSepFrom, h]

theorem words_cons_sep (c : Char) (cs : List Char) (h : isFlagSep c = true) :
    words (c :: cs) = words cs := by
  simp [words, h]

theorem words_cons_cons (c d : Char) (ds : List Char) :
    words (c :: d :: ds) =
      if isFlagSep c = true then words (d :: ds)
      else if isFlagSep d = true then [c] :: words (d :: ds)
      else
        match words (d :: ds) with
        | [] => [[c]]
        | w :: ws => (c :: w) :: ws := rfl

theorem words_singleton (c : Char) (h : isFlagSep c = false) : words [c] = [[c]] := by
  simp [words, h]

theorem words_ne_nil_of_head (c : Char) (cs : List Char) (h : isFlagSep c = false) :
    words (c :: cs) ≠ [] := by
  cases cs with
  | nil => simp [words_singleton c h]
  | cons d ds =>
    rw [words_cons_cons]
    by_cases hd : isFlagSep d = true
    · simp [h, hd]
    · have hd' : isFlagSep d = false := by simpa using hd
      cases hws : words (d :: ds) <;> simp [h, hd']

theorem joinWords_cons_cons (c : Char) (w : List Char) (ws : List (List Char)) :
    joinWords ((c :: w) :: ws) = c :: joinWords (w :: ws) := by
  cases ws <;> simp [joinWords]

/-- After a separator, the replaced text is the words joined by single spaces,
followed by one space when separators end the name. -/
theorem replaceFlagSepFrom_true_eq (name : List Char) :
    ∃ b : List Char, (b = [] ∨ b = [' ']) ∧
      replaceFlagSepFrom true name = joinWords (words name) ++ b ∧
      (words name = [] → b = []) := by
  induction name with
  | nil => exact ⟨[], Or.inl rfl, by simp [replaceFlagSepFrom, words, joinWords], fun _ => rfl⟩
  | cons c cs ih =>
    obtain ⟨b, hb, hrep, hnil⟩ := ih
    by_cases hc : isFlagSep c = true
    · exact ⟨b, hb, by rw [replaceFlagSepFrom_cons_sep_true c cs hc, words_cons_sep c cs hc, hrep],
        by rw [words_cons_sep c cs hc]; exact hnil⟩
    · have hc' : isFlagSep c = false := by simpa using hc
      rw [replaceFlagSepFrom_cons_word true c cs hc']
      cases cs with
      | nil =>
        exact ⟨[], Or.inl rfl, by simp [replaceFlagSepFrom, words_singleton c hc', joinWords],
          fun _ => rfl⟩
      | cons d ds =>
        by_cases hd : isFlagSep d = true
        · rw [replaceFlagSepFrom_cons_sep_true d ds hd] at hrep
          rw [replaceFlagSepFrom_cons_sep_false d ds hd, hrep]
          have hw : words (c :: d :: ds) = [c] :: words (d :: ds) := by
            rw [words_cons_cons]; simp [hc', hd]
          rw [hw]
          cases hws : words (d :: ds) with
          | nil =>
            have hb' : b = [] := hnil hws
            exact ⟨[' '], Or.inr rfl, by simp [hb', joinWords], by simp⟩
          | cons w ws =>
            exact ⟨b, hb, by simp [joinWords], by simp⟩
        · have hd' : isFlagSep d = false := by simpa using hd
          rw [replaceFlagSepFrom_cons_word true d ds hd'] at hrep
          rw [replaceFlagSepFrom_cons_word false d ds hd', hrep]
          cases hws : words (d :: ds) with
          | nil => exact absurd hws (words_ne_nil_of_head d ds hd')
          | cons w ws =>
            have hw : words (c :: d :: ds) = (c :: w) :: ws := by
              rw [words_cons_cons, hws]; simp [hc', hd']
            rw [hw, joinWords_cons_cons]
            exact ⟨b, hb, by simp, by simp⟩

theorem replaceFlagSep_eq (name : List Char) :
    ∃ a b : List Char, (a = [] ∨ a = [' ']) ∧ (b = [] ∨ b = [' ']) ∧
      replaceFlagSep name = a ++ joinWords (words name) ++ b := by
  obtain ⟨b, hb, hrep, _⟩ := replaceFlagSepFrom_true_eq name
  cases name with
  | nil => exact ⟨[], [], Or.inl rfl, Or.inl rfl, by simp [replaceFlagSep, replaceFlagSepFrom, words, joinWords]⟩
  | cons c cs =>
    by_cases hc : isFlagSep c = true
    · refine ⟨[' '], b, Or.inr rfl, hb, ?_⟩
      rw [replaceFlagSepFrom_cons_sep_true c cs hc] at hrep
      rw [replaceFlagSep, replaceFlagSepFrom_cons_sep_false c cs hc, hrep]
      simp
    · have hc' : isFlagSep c = false := by simpa using hc
      refine ⟨[], b, Or.inl rfl, hb, ?_⟩
      rw [replaceFlagSepFrom_cons_word true c cs hc'] at hrep
      rw [replaceFlagSep, replaceFlagSepFrom_cons_word false c cs hc', hrep]
      simp

theorem TrimSpace_cons_space (c : Char) (s : List Char) (h : isSpace c = true) :
    TrimSpace (c :: s) = TrimSpace s := by
  simp [TrimSpace, List.dropWhile_cons, h]

theorem TrimSpace_append_space (c : Char) (h : isSpace c = true) (s : List Char) :
    TrimSpace (s ++ [c]) = TrimSpace s := by
  induction s with
  | nil => simp [TrimSpace, h]
  | cons d ds ih =>
    by_cases hd : isSpace d = true
    · rw [List.cons_append, TrimSpace_cons_space d _ hd, TrimSpace_cons_space d _ hd, ih]
    · simp [TrimSpace, List.dropWhile_cons, hd, h]

/-- Trimming the replaced name gives the trimmed words joined by single spaces. -/
theorem TrimSpace_replaceFlagSep (name : List Char) :
    TrimSpace (replaceFlagSep name) = TrimSpace (joinWords (words name)) := by
  obtain ⟨a, b, ha, hb, hrep⟩ := replaceFlagSep_eq name
  rw [hrep]
  rcases ha with rfl | rfl <;> rcases hb with rfl | rfl
  · simp
  · rw [List.nil_append, TrimSpace_append_space ' ' isSpace_space]
  · rw [List.append_nil, List.singleton_append, TrimSpace_cons_space ' ' _ isSpace_space]
  · rw [TrimSpace_append_space ' ' isSpace_space, List.singleton_append,
      TrimSpace_cons_space ' ' _ isSpace_space]

/-- C8: two names with the same sequence of words, whatever non-empty runs of the
separators of `flagSep` (tab, newline, form feed, carriage return, space, '.',
'_', '-') separate or surround the words, have the same canonical name. -/
theorem canonicalFlagName_separators_interchangeable (U : UnicodeTables)
    (name₁ name₂ : List Char) (h : words name₁ = words name₂) :
    canonicalFlagName U name₁ = canonicalFlagName U name₂ := by
  unfold canonicalFlagName
  rw [TrimSpace_replaceFlagSep name₁, TrimSpace_replaceFlagSep name₂, h]

theorem canonicalFlagName_separators_interchangeable_witness :
    words "node_data_url".toList = words " node.data--url\t".toList ∧
    canonicalFlagName asciiTables "node_data_url".toList =
      canonicalFlagName asciiTables " node.data--url\t".toList :=
  ⟨by decide,
    canonicalFlagName_separators_interchangeable asciiTables "node_data_url".toList
      " node.data--url\t".toList (by decide)⟩

/-! ### On ASCII names the tables of package `unicode` are not consulted -/

theorem char_toUpper_ascii (c : Char) (h : c.toNat ≤ 0x7F) : c.toUpper.toNat ≤ 0x7F := by
  have key : ∀ n, n < 128 → (Char.ofNat n).toUpper.toNat ≤ 0x7F := by decide
  have := key c.toNat (by omega)
  rwa [Char.ofNat_toNat] at this

theorem char_toLower_ascii (c : Char) (h : c.toNat ≤ 0x7F) : c.toLower.toNat ≤ 0x7F := by
  have key : ∀ n, n < 128 → (Char.ofNat n).toLower.toNat ≤ 0x7F := by decide
  have := key c.toNat (by omega)
  rwa [Char.ofNat_toNat] at this

theorem toUpper_ascii (U : UnicodeTables) (c : Char) (h : c.toNat ≤ 0x7F) :
    toUpper U c = c.toUpper := by
  simp [toUpper, h]

theorem toLower_ascii (U : UnicodeTables) (c : Char) (h : c.toNat ≤ 0x7F) :
    toLower U c = c.toLower := by
  simp [toLower, h]

theorem toTitle_ascii (U : UnicodeTables) (c : Char) (h : c.toNat ≤ 0x7F) :
    toTitle U c = c.toUpper := by
  simp [toTitle, h]

theorem isSeparator_ascii (U V : UnicodeTables) (c : Char) (h : c.toNat ≤ 0x7F) :
    isSeparator U c = isSeparator V c := by
  simp [isSeparator, h]

theorem IsAscii.tail {c : Char} {s : List Char} (h : IsAscii (c :: s)) : IsAscii s :=
  fun d hd => h d (List.mem_cons_of_mem _ hd)

theorem IsAscii.head {c : Char} {s : List Char} (h : IsAscii (c :: s)) : c.toNat ≤ 0x7F :=
  h c (List.mem_cons_self _ _)

theorem ToUpper_ascii (U : UnicodeTables) (s : List Char) (h : IsAscii s) :
    ToUpper U s = s.map Char.toUpper ∧ IsAscii (ToUpper U s) := by
  have e : ToUpper U s = s.map Char.toUpper :=
    List.map_congr_left fun c hc => toUpper_ascii U c (h c hc)
  refine ⟨e, ?_⟩
  rw [e]
  intro c hc
  obtain ⟨d, hd, rfl⟩ := List.mem_map.mp hc
  exact char_toUpper_ascii d (h d hd)

theorem ToLower_ascii (U : UnicodeTables) (s : List Char) (h : IsAscii s) :
    ToLower U s = s.map Char.toLower ∧ IsAscii (ToLower U s) := by
  have e : ToLower U s = s.map Char.toLower :=
    List.map_congr_left fun c hc => toLower_ascii U c (h c hc)
  refine ⟨e, ?_⟩
  rw [e]
  intro c hc
  obtain ⟨d, hd, rfl⟩ := List.mem_map.mp hc
  exact char_toLower_ascii d (h d hd)

theorem titleFrom_ascii (U V : UnicodeTables) (s : List Char) :
    ∀ prev : Char, prev.toNat ≤ 0x7F → IsAscii s →
      titleFrom U prev s = titleFrom V prev s ∧ IsAscii (titleFrom U prev s) := by
  induction s with
  | nil => intro _ _ _; exact ⟨rfl, fun c hc => by simp [titleFrom] at hc⟩
  | cons r rs ih =>
    intro prev hp hs
    obtain ⟨e, a⟩ := ih r hs.head hs.tail
    have hU : titleFrom U prev (r :: rs) =
        (if isSeparator V prev = true then r.toUpper else r) :: titleFrom V r rs := by
      simp only [titleFrom]
      rw [isSeparator_ascii U V prev hp, toTitle_ascii U r hs.head, e]
    have hV : titleFrom V prev (r :: rs) =
        (if isSeparator V prev = true then r.toUpper else r) :: titleFrom V r rs := by
      simp only [titleFrom]
      rw [toTitle_ascii V r hs.head]
    refine ⟨hU.trans hV.symm, ?_⟩
    rw [hU]
    intro c hc
    rcases List.mem_cons.mp hc with rfl | hc
    · split
      · exact char_toUpper_ascii r hs.head
      · exact hs.head
    · exact a c (e ▸ hc)

theorem replaceFlagSepFrom_isAscii (s : List Char) :
    ∀ b : Bool, IsAscii s → IsAscii (replaceFlagSepFrom b s) := by
  induction s with
  | nil => intro _ _ c hc; simp [replaceFlagSepFrom] at hc
  | cons d ds ih =>
    intro b hs c hc
    by_cases hd : isFlagSep d = true
    · cases b with
      | true =>
        rw [replaceFlagSepFrom_cons_sep_true d ds hd] at hc
        exact ih true hs.tail c hc
      | false =>
        rw [replaceFlagSepFrom_cons_sep_false d ds hd] at hc
        rcases List.mem_cons.mp hc with rfl | hc
        · decide
        · exact ih true hs.tail c hc
    · rw [replaceFlagSepFrom_cons_word b d ds (by simpa using hd)] at hc
      rcases List.mem_cons.mp hc with rfl | hc
      · exact hs.head
      · exact ih false hs.tail c hc

theorem TrimSpace_isAscii (s : List Char) (h : IsAscii s) : IsAscii (TrimSpace s) := by
  intro c hc
  unfold TrimSpace at hc
  have h1 := (List.dropWhile_sublist isSpace).subset (List.mem_reverse.mp hc)
  exact h c ((List.dropWhile_sublist isSpace).subset (List.mem_reverse.mp h1))

theorem splitSpace_isAscii (s : List Char) :
    IsAscii s → ∀ p ∈ splitSpace s, IsAscii p := by
  induction s with
  | nil => intro _ p hp c hc; simp [splitSpace] at hp; subst hp; simp at hc
  | cons d ds ih =>
    intro hs p hp
    have ih' := ih hs.tail
    by_cases hd : d = ' '
    · simp only [splitSpace, hd, if_true] at hp
      rcases List.mem_cons.mp hp with rfl | hp
      · intro c hc; simp at hc
      · exact ih' p hp
    · simp only [splitSpace, hd, if_false] at hp
      cases hsp : splitSpace ds with
      | nil =>
        rw [hsp] at hp
        simp at hp
        subst hp
        intro c hc
        simp at hc
        subst hc
        exact hs.head
      | cons q qs =>
        rw [hsp] at hp ih'
        rcases List.mem_cons.mp hp with rfl | hp
        · intro c hc
          rcases List.mem_cons.mp hc with rfl | hc
          · exact hs.head
          · exact ih' q (List.mem_cons_self _ _) c hc
        · exact ih' p (List.mem_cons_of_mem _ hp)

theorem specialCapsFrom_ascii (U V : UnicodeTables) (parts : List (List Char)) :
    ∀ i : Nat, (∀ p ∈ parts, IsAscii p) →
      specialCapsFrom U i parts = specialCapsFrom V i parts ∧
      ∀ p ∈ specialCapsFrom U i parts, IsAscii p := by
  induction parts with
  | nil => intro _ _; exact ⟨rfl, fun p hp => by simp [specialCapsFrom] at hp⟩
  | cons q qs ih =>
    intro i h
    have hq : IsAscii q := h q (List.mem_cons_self _ _)
    obtain ⟨e, a⟩ := ih (i + 1) fun p hp => h p (List.mem_cons_of_mem _ hp)
    have hfn : replaceSpecialCaps (if i = 0 then ToLower U else ToUpper U) q =
        replaceSpecialCaps (if i = 0 then ToLower V else ToUpper V) q ∧
        IsAscii (replaceSpecialCaps (if i = 0 then ToLower U else ToUpper U) q) := by
      unfold replaceSpecialCaps
      by_cases hs : isSpecialCaps q = true
      · by_cases hi : i = 0
        · simp only [hs, hi, if_true]
          exact ⟨by rw [(ToLower_ascii U q hq).1, (ToLower_ascii V q hq).1],
            (ToLower_ascii U q hq).2⟩
        · simp only [hs, hi, if_true, if_false]
          exact ⟨by rw [(ToUpper_ascii U q hq).1, (ToUpper_ascii V q hq).1],
            (ToUpper_ascii U q hq).2⟩
      · simp only [hs]
        exact ⟨rfl, hq⟩
    refine ⟨?_, ?_⟩
    · simp only [specialCapsFrom]
      rw [hfn.1, e]
    · intro p hp
      simp only [specialCapsFrom] at hp
      rcases List.mem_cons.mp hp with rfl | hp
      · exact hfn.2
      · exact a p hp

theorem lowerFirst_ascii (U V : UnicodeTables) (parts : List (List Char))
    (h : ∀ p ∈ parts, IsAscii p) : lowerFirst U parts = lowerFirst V parts := by
  cases parts with
  | nil => rfl
  | cons first rest =>
    have hf : IsAscii first := h first (List.mem_cons_self _ _)
    cases first with
    | nil => simp [lowerFirst, ToUpper]
    | cons r tl =>
      simp only [lowerFirst]
      rw [(ToUpper_ascii U (r :: tl) hf).1, (ToUpper_ascii V (r :: tl) hf).1,
        toLower_ascii U r hf.head, toLower_ascii V r hf.head]

/-- On a name of ASCII runes the result does not depend on the tables. -/
theorem canonicalFlagName_ascii (U V : UnicodeTables) (name : List Char) (h : IsAscii name) :
    canonicalFlagName U name = canonicalFlagName V name := by
  have h1 : IsAscii (TrimSpace (replaceFlagSep name)) :=
    TrimSpace_isAscii _ (replaceFlagSepFrom_isAscii name false h)
  obtain ⟨e2, h2⟩ := titleFrom_ascii U V _ ' ' (by decide) h1
  have h3 := splitSpace_isAscii _ h2
  obtain ⟨e4, h4⟩ := specialCapsFrom_ascii U V _ 0 h3
  unfold canonicalFlagName Title
  rw [lowerFirst_ascii U V _ h4, e4, e2]

theorem registeredFlags_asciiTables :
    ∀ p ∈ registeredFlags,
      (IsAscii p.1 ∧ canonicalFlagName asciiTables p.1 = p.1) ∧
      ∀ sep ∈ ['_', '-', '.'],
        IsAscii (List.intercalate [sep] p.2) ∧
        canonicalFlagName asciiTables (List.intercalate [sep] p.2) = p.1 := by
  decide

/-- C10: each of the nine flag names registered by `newConfig` is its own canonical
name, and its lower-case words joined by '_', '-' or '.' have that name as
canonical name, whatever the tables of package `unicode`. -/
theorem canonicalFlagName_registeredFlags (U : UnicodeTables) :
    ∀ p ∈ registeredFlags,
      canonicalFlagName U p.1 = p.1 ∧
      ∀ sep ∈ ['_', '-', '.'], canonicalFlagName U (List.intercalate [sep] p.2) = p.1 := by
  intro p hp
  obtain ⟨⟨ha, hself⟩, hsep⟩ := registeredFlags_asciiTables p hp
  refine ⟨?_, ?_⟩
  · rw [canonicalFlagName_ascii U asciiTables p.1 ha, hself]
  · intro sep hs
    obtain ⟨ha', hjoin⟩ := hsep sep hs
    rw [canonicalFlagName_ascii U asciiTables _ ha', hjoin]

theorem canonicalFlagName_registeredFlags_witness :
    canonicalFlagName asciiTables "nodeDataURL".toList = "nodeDataURL".toList ∧
    canonicalFlagName asciiTables "node_data_url".toList = "nodeDataURL".toList ∧
    canonicalFlagName asciiTables "node-data-url".toList = "nodeDataURL".toList ∧
    canonicalFlagName asciiTables "node.data.url".toList = "nodeDataURL".toList :=
  have h := canonicalFlagName_registeredFlags asciiTables
    ("nodeDataURL".toList, ["node".toList, "data".toList, "url".toList]) (by decide)
  ⟨h.1, h.2 '_' (by decide), h.2 '-' (by decide), h.2 '.' (by decide)⟩

/-! ### All-caps words -/

theorem isUpper_toNat_lt (c : Char) (h : c.isUpper = true) : c.toNat < 128 := by
  simp only [Char.isUpper, Bool.and_eq_true, decide_eq_true_eq] at h
  have h2 : c.val.toNat ≤ 90 := h.2
  exact Nat.lt_of_le_of_lt h2 (by decide)

theorem isUpper_facts (c : Char) (h : c.isUpper = true) :
    c.toNat ≤ 0x7F ∧ isFlagSep c = false ∧ isSpace c = false ∧ c ≠ ' ' ∧ c.toUpper = c ∧
      c.toLower.toNat ≤ 0x7F ∧ c.toLower.toLower = c.toLower := by
  have key : ∀ n, n < 128 → (Char.ofNat n).isUpper = true →
      (Char.ofNat n).toNat ≤ 0x7F ∧ isFlagSep (Char.ofNat n) = false ∧
      isSpace (Char.ofNat n) = false ∧ Char.ofNat n ≠ ' ' ∧
      (Char.ofNat n).toUpper = Char.ofNat n ∧ (Char.ofNat n).toLower.toNat ≤ 0x7F ∧
      (Char.ofNat n).toLower.toLower = (Char.ofNat n).toLower := by decide
  have := key c.toNat (isUpper_toNat_lt c h)
  rw [Char.ofNat_toNat] at this
  exact this h

theorem joinWords_cons_spaceBefore (w : List Char) (ws : List (List Char)) :
    joinWords (w :: ws) = w ++ spaceBefore ws := by
  induction ws generalizing w with
  | nil => simp [joinWords, spaceBefore]
  | cons v vs ih => simp [joinWords, spaceBefore, ih v]

theorem joinWords_split (ws₁ : List (List Char)) (w : List Char) (ws₂ : List (List Char)) :
    joinWords (ws₁ ++ w :: ws₂) = spaceAfter ws₁ ++ w ++ spaceBefore ws₂ := by
  induction ws₁ with
  | nil => simp [spaceAfter, joinWords_cons_spaceBefore]
  | cons v vs ih =>
    cases hvs : vs ++ w :: ws₂ with
    | nil => simp at hvs
    | cons u us =>
      rw [List.cons_append, hvs]
      simp only [joinWords, spaceAfter]
      rw [← hvs, ih]
      simp

theorem words_mem_ne_nil (name : List Char) : ∀ v ∈ words name, v ≠ [] := by
  induction name with
  | nil => intro v hv; simp [words] at hv
  | cons c cs ih =>
    intro v hv
    by_cases hc : isFlagSep c = true
    · rw [words_cons_sep c cs hc] at hv; exact ih v hv
    · have hc' : isFlagSep c = false := by simpa using hc
      cases cs with
      | nil => rw [words_singleton c hc'] at hv; simp at hv; simp [hv]
      | cons d ds =>
        rw [words_cons_cons] at hv
        simp only [hc', Bool.false_eq_true, if_false] at hv
        by_cases hd : isFlagSep d = true
        · simp only [hd, if_true] at hv
          rcases List.mem_cons.mp hv with rfl | hv
          · simp
          · exact ih v hv
        · simp only [hd, if_false] at hv
          cases hws : words (d :: ds) with
          | nil => rw [hws] at hv; simp at hv; simp [hv]
          | cons u us =>
            rw [hws] at hv ih
            rcases List.mem_cons.mp hv with rfl | hv
            · simp
            · exact ih v (List.mem_cons_of_mem _ hv)


theorem dropWhile_append_head (p : Char → Bool) (a : List Char) (c : Char) (b : List Char)
    (hc : p c = false) : (a ++ c :: b).dropWhile p = a.dropWhile p ++ c :: b := by
  induction a with
  | nil => simp [List.dropWhile_cons, hc]
  | cons d ds ih => by_cases hd : p d = true <;> simp [List.dropWhile_cons, hd, ih]

theorem TrimSpace_around (a w b : List Char) (hw : w ≠ [])
    (hsp : ∀ c ∈ w, isSpace c = false) :
    TrimSpace (a ++ w ++ b) =
      a.dropWhile isSpace ++ w ++ (b.reverse.dropWhile isSpace).reverse := by
  obtain ⟨c, w', rfl⟩ := List.exists_cons_of_ne_nil hw
  have h1 : (a ++ c :: w' ++ b).dropWhile isSpace = a.dropWhile isSpace ++ c :: (w' ++ b) := by
    rw [List.append_assoc, List.cons_append]
    exact dropWhile_append_head isSpace a c (w' ++ b) (hsp c (List.mem_cons_self _ _))
  rcases List.eq_nil_or_concat (c :: w') with h | ⟨w'', e, he⟩
  · simp at h
  have hmem : e ∈ c :: w' := by rw [he]; simp
  have h2 : (a.dropWhile isSpace ++ c :: (w' ++ b)).reverse =
      b.reverse ++ e :: (w''.reverse ++ (a.dropWhile isSpace).reverse) := by
    rw [← List.cons_append, he]
    simp
  unfold TrimSpace
  rw [h1, h2, dropWhile_append_head isSpace _ e _ (hsp e hmem), he]
  simp

theorem toTitle_space (U : UnicodeTables) : toTitle U ' ' = ' ' := by
  simp [toTitle]

theorem titleFrom_append (U : UnicodeTables) (x y : List Char) :
    ∀ prev : Char, ∃ prev' : Char,
      titleFrom U prev (x ++ y) = titleFrom U prev x ++ titleFrom U prev' y := by
  induction x with
  | nil => intro prev; exact ⟨prev, by simp [titleFrom]⟩
  | cons c cs ih =>
    intro prev
    obtain ⟨prev', h⟩ := ih c
    exact ⟨prev', by simp [titleFrom, h]⟩

theorem titleFrom_upper (U : UnicodeTables) (w : List Char)
    (hup : ∀ c ∈ w, c.isUpper = true) : ∀ prev : Char, titleFrom U prev w = w := by
  induction w with
  | nil => intro _; rfl
  | cons c cs ih =>
    intro prev
    have hc := isUpper_facts c (hup c (List.mem_cons_self _ _))
    simp only [titleFrom, toTitle_ascii U c hc.1, hc.2.2.2.2.1, ite_self,
      ih (fun d hd => hup d (List.mem_cons_of_mem _ hd)) c]

theorem titleFrom_space_cons (U : UnicodeTables) (prev : Char) (y : List Char) :
    titleFrom U prev (' ' :: y) = ' ' :: titleFrom U ' ' y := by
  simp [titleFrom, toTitle_space]

theorem Title_around (U : UnicodeTables) (a w b : List Char)
    (hup : ∀ c ∈ w, c.isUpper = true)
    (ha : a = [] ∨ ∃ a', a = a' ++ [' ']) (hb : b = [] ∨ ∃ b', b = ' ' :: b') :
    ∃ a₁ b₁ : List Char, Title U (a ++ w ++ b) = a₁ ++ w ++ b₁ ∧
      (a = [] → a₁ = []) ∧ (a ≠ [] → ∃ a₂, a₁ = a₂ ++ [' ']) ∧
      (b₁ = [] ∨ ∃ b₂, b₁ = ' ' :: b₂) := by
  unfold Title
  obtain ⟨p₁, h₁⟩ := titleFrom_append U (a ++ w) b ' '
  obtain ⟨p₂, h₂⟩ := titleFrom_append U a w ' '
  rw [h₁, h₂, titleFrom_upper U w hup p₂]
  refine ⟨titleFrom U ' ' a, titleFrom U p₁ b, rfl, ?_, ?_, ?_⟩
  · intro h; subst h; rfl
  · intro hne
    rcases ha with h | ⟨a', rfl⟩
    · exact absurd h hne
    · obtain ⟨p₃, h₃⟩ := titleFrom_append U a' [' '] ' '
      exact ⟨titleFrom U ' ' a', by rw [h₃, titleFrom_space_cons]; rfl⟩
  · rcases hb with h | ⟨b', rfl⟩
    · left; subst h; rfl
    · right; exact ⟨_, titleFrom_space_cons U p₁ b'⟩

theorem splitSpace_ne_nil (s : List Char) : splitSpace s ≠ [] := by
  cases s with
  | nil => simp [splitSpace]
  | cons c cs =>
    simp only [splitSpace]
    split
    · simp
    · split <;> simp

theorem splitSpace_append_space (x y : List Char) :
    splitSpace (x ++ ' ' :: y) = splitSpace x ++ splitSpace y := by
  induction x with
  | nil => simp [splitSpace]
  | cons c cs ih =>
    by_cases hc : c = ' '
    · simp [splitSpace, hc, ih]
    · cases hs : splitSpace cs with
      | nil => exact absurd hs (splitSpace_ne_nil cs)
      | cons p ps => simp [splitSpace, hc, ih, hs]

theorem splitSpace_word (w : List Char) (h : ∀ c ∈ w, c ≠ ' ') : splitSpace w = [w] := by
  induction w with
  | nil => rfl
  | cons c cs ih =>
    have hc : c ≠ ' ' := h c (List.mem_cons_self _ _)
    simp [splitSpace, hc, ih fun d hd => h d (List.mem_cons_of_mem _ hd)]

theorem splitSpace_around (a₁ w b₁ : List Char) (hw : ∀ c ∈ w, c ≠ ' ')
    (ha : a₁ = [] ∨ ∃ a₂, a₁ = a₂ ++ [' ']) (hb : b₁ = [] ∨ ∃ b₂, b₁ = ' ' :: b₂) :
    ∃ P Q : List (List Char), splitSpace (a₁ ++ w ++ b₁) = P ++ w :: Q ∧
      (a₁ = [] → P = []) ∧ (a₁ ≠ [] → P ≠ []) := by
  have hwb : ∃ Q, splitSpace (w ++ b₁) = w :: Q := by
    rcases hb with rfl | ⟨b₂, rfl⟩
    · exact ⟨[], by rw [List.append_nil, splitSpace_word w hw]⟩
    · exact ⟨splitSpace b₂, by rw [splitSpace_append_space, splitSpace_word w hw]; rfl⟩
  obtain ⟨Q, hQ⟩ := hwb
  rcases ha with rfl | ⟨a₂, rfl⟩
  · exact ⟨[], Q, by simpa using hQ, fun _ => rfl, fun h => absurd rfl h⟩
  · refine ⟨splitSpace a₂, Q, ?_, fun h => by simp at h, fun _ => splitSpace_ne_nil a₂⟩
    rw [List.append_assoc, List.append_assoc, List.singleton_append, splitSpace_append_space, hQ]


theorem spaceAfter_shape (ws : List (List Char)) :
    spaceAfter ws = [] ∨ ∃ x, spaceAfter ws = x ++ [' '] := by
  induction ws with
  | nil => exact Or.inl rfl
  | cons v vs ih =>
    right
    rcases ih with h | ⟨x, h⟩
    · exact ⟨v, by simp [spaceAfter, h]⟩
    · exact ⟨v ++ ' ' :: x, by simp [spaceAfter, h]⟩

theorem spaceBefore_shape (ws : List (List Char)) :
    spaceBefore ws = [] ∨ ∃ y, spaceBefore ws = ' ' :: y := by
  cases ws with
  | nil => exact Or.inl rfl
  | cons v vs => exact Or.inr ⟨_, rfl⟩

theorem dropWhile_shape (p : Char → Bool) (s : Char) (x : List Char) :
    (x = [] ∨ ∃ x', x = x' ++ [s]) →
      (x.dropWhile p = [] ∨ ∃ y, x.dropWhile p = y ++ [s]) := by
  induction x with
  | nil => intro _; exact Or.inl rfl
  | cons c cs ih =>
    intro h
    rcases h with h | ⟨x', h⟩
    · simp at h
    by_cases hc : p c = true
    · rw [List.dropWhile_cons_of_pos hc]
      apply ih
      cases x' with
      | nil => left; simp at h; exact h.2
      | cons d ds => right; simp at h; exact ⟨ds, h.2⟩
    · rw [List.dropWhile_cons_of_neg hc]
      exact Or.inr ⟨x', h⟩

theorem spaceAfter_all (ws : List (List Char))
    (h : ∀ v ∈ ws, ∀ c ∈ v, isSpace c = true) : ∀ c ∈ spaceAfter ws, isSpace c = true := by
  induction ws with
  | nil => intro c hc; simp [spaceAfter] at hc
  | cons v vs ih =>
    intro c hc
    simp only [spaceAfter, List.mem_append, List.mem_cons] at hc
    rcases hc with hc | rfl | hc
    · exact h v (List.mem_cons_self _ _) c hc
    · exact isSpace_space
    · exact ih (fun u hu => h u (List.mem_cons_of_mem _ hu)) c hc

theorem mem_spaceAfter (ws : List (List Char)) (v : List Char) (c : Char)
    (hv : v ∈ ws) (hc : c ∈ v) : c ∈ spaceAfter ws := by
  induction ws with
  | nil => simp at hv
  | cons u us ih =>
    simp only [spaceAfter, List.mem_append, List.mem_cons]
    rcases List.mem_cons.mp hv with rfl | hv
    · exact Or.inl hc
    · exact Or.inr (Or.inr (ih hv))

theorem specialCapsFrom_append (U : UnicodeTables) (P R : List (List Char)) :
    ∀ i : Nat, specialCapsFrom U i (P ++ R) =
      specialCapsFrom U i P ++ specialCapsFrom U (i + P.length) R := by
  induction P with
  | nil => intro i; simp [specialCapsFrom]
  | cons p ps ih =>
    intro i
    have e : i + 1 + ps.length = i + (ps.length + 1) := by omega
    simp [specialCapsFrom, ih (i + 1), e]

theorem ToUpper_upper (U : UnicodeTables) (w : List Char)
    (hup : ∀ c ∈ w, c.isUpper = true) : ToUpper U w = w := by
  have hascii : IsAscii w := fun c hc => (isUpper_facts c (hup c hc)).1
  rw [(ToUpper_ascii U w hascii).1]
  conv_rhs => rw [← List.map_id w]
  exact List.map_congr_left fun c hc => (isUpper_facts c (hup c hc)).2.2.2.2.1

theorem ToLower_upper (U : UnicodeTables) (w : List Char)
    (hup : ∀ c ∈ w, c.isUpper = true) : ToLower U w = w.map Char.toLower :=
  (ToLower_ascii U w fun c hc => (isUpper_facts c (hup c hc)).1).1

theorem lowerFirst_cons (U : UnicodeTables) (p : List Char) (rest : List (List Char)) :
    ∃ p', lowerFirst U (p :: rest) = p' :: rest := by
  simp only [lowerFirst]
  split
  · cases p <;> exact ⟨_, rfl⟩
  · exact ⟨_, rfl⟩

theorem lowerFirst_caps (U : UnicodeTables) (w : List Char) (rest : List (List Char))
    (hup : ∀ c ∈ w, c.isUpper = true) (hlen : w.length ≠ 1) :
    lowerFirst U (w :: rest) = w :: rest := by
  simp [lowerFirst, hlen, ToUpper_upper U w hup]

theorem lowerFirst_single (U : UnicodeTables) (w : List Char) (rest : List (List Char))
    (hup : ∀ c ∈ w, c.isUpper = true) (hlen : w.length = 1) :
    lowerFirst U (w :: rest) = w.map Char.toLower :: rest := by
  cases w with
  | nil => simp at hlen
  | cons c cs =>
    have hc := isUpper_facts c (hup c (List.mem_cons_self _ _))
    have hcs : cs = [] := by simpa using hlen
    subst hcs
    simp [lowerFirst, toLower_ascii U c hc.1]

theorem lowerFirst_lowered (U : UnicodeTables) (w : List Char) (rest : List (List Char))
    (hup : ∀ c ∈ w, c.isUpper = true) :
    lowerFirst U (w.map Char.toLower :: rest) = w.map Char.toLower :: rest := by
  cases w with
  | nil => simp [lowerFirst, ToUpper]
  | cons c cs =>
    have hc := isUpper_facts c (hup c (List.mem_cons_self _ _))
    simp only [lowerFirst, List.map_cons]
    split
    · rw [toLower_ascii U _ hc.2.2.2.2.2.1, hc.2.2.2.2.2.2]
    · rfl


theorem replaceSpecialCaps_ToUpper (U : UnicodeTables) (w : List Char)
    (hup : ∀ c ∈ w, c.isUpper = true) : replaceSpecialCaps (ToUpper U) w = w := by
  unfold replaceSpecialCaps
  split
  · exact ToUpper_upper U w hup
  · rfl

theorem infix_flatten_lowerFirst (U : UnicodeTables) (q : List Char)
    (rest : List (List Char)) (w : List Char) (rest' : List (List Char)) :
    w <:+: (lowerFirst U (q :: (rest ++ w :: rest'))).flatten := by
  obtain ⟨q', hq'⟩ := lowerFirst_cons U q (rest ++ w :: rest')
  rw [hq']
  exact ⟨q' ++ rest.flatten, rest'.flatten, by simp⟩

/-- The parts that the loop of `canonicalFlagName` works on, around a word of
upper-case letters. -/
theorem parts_around (U : UnicodeTables) (name : List Char) (ws₁ : List (List Char))
    (w : List Char) (ws₂ : List (List Char)) (hwords : words name = ws₁ ++ w :: ws₂)
    (hup : ∀ c ∈ w, c.isUpper = true) :
    ∃ P Q : List (List Char),
      splitSpace (Title U (TrimSpace (replaceFlagSep name))) = P ++ w :: Q ∧
      ((∀ v ∈ ws₁, ∀ c ∈ v, isSpace c = true) → P = []) ∧
      ((∃ v ∈ ws₁, ∃ c ∈ v, isSpace c = false) → P ≠ []) := by
  have hw : w ≠ [] := words_mem_ne_nil name w (by rw [hwords]; simp)
  have hsp : ∀ c ∈ w, isSpace c = false := fun c hc => (isUpper_facts c (hup c hc)).2.2.1
  have hns : ∀ c ∈ w, c ≠ ' ' := fun c hc => (isUpper_facts c (hup c hc)).2.2.2.1
  rw [TrimSpace_replaceFlagSep, hwords, joinWords_split, TrimSpace_around _ w _ hw hsp]
  have hA := dropWhile_shape isSpace ' ' _ (spaceAfter_shape ws₁)
  have hB : ((spaceBefore ws₂).reverse.dropWhile isSpace).reverse = [] ∨
      ∃ b', ((spaceBefore ws₂).reverse.dropWhile isSpace).reverse = ' ' :: b' := by
    have hrev : (spaceBefore ws₂).reverse = [] ∨
        ∃ x', (spaceBefore ws₂).reverse = x' ++ [' '] := by
      rcases spaceBefore_shape ws₂ with h | ⟨y, h⟩
      · left; simp [h]
      · right; exact ⟨y.reverse, by simp [h]⟩
    rcases dropWhile_shape isSpace ' ' _ hrev with h | ⟨z, h⟩
    · left; simp [h]
    · right; exact ⟨z.reverse, by simp [h]⟩
  obtain ⟨a₁, b₁, hT, ha0, ha1, hb1⟩ := Title_around U _ w _ hup hA hB
  have ha₁ : a₁ = [] ∨ ∃ a₂, a₁ = a₂ ++ [' '] := by
    by_cases h : (spaceAfter ws₁).dropWhile isSpace = []
    · exact Or.inl (ha0 h)
    · exact Or.inr (ha1 h)
  obtain ⟨P, Q, hS, hP0, hP1⟩ := splitSpace_around a₁ w b₁ hns ha₁ hb1
  refine ⟨P, Q, by rw [hT, hS], ?_, ?_⟩
  · intro hall
    exact hP0 (ha0 (List.dropWhile_eq_nil_iff.mpr (spaceAfter_all ws₁ hall)))
  · rintro ⟨v, hv, c, hc, hcs⟩
    have hne : (spaceAfter ws₁).dropWhile isSpace ≠ [] := by
      intro h
      have := List.dropWhile_eq_nil_iff.mp h c (mem_spaceAfter ws₁ v c hv hc)
      simp [hcs] at this
    obtain ⟨a₂, h2⟩ := ha1 hne
    exact hP1 (by simp [h2])

/-- C9 (amended): a word of a name that consists only of the upper-case letters A to Z
appears unchanged in the canonical name, unless it is the first word (no
earlier word holds anything but white space) and is a single letter or one of
URL, CPU, IP, ID (in any case); such a first word is lower-cased: the
canonical name begins with it in lower case. -/
theorem canonicalFlagName_caps_words (U : UnicodeTables) (name : List Char)
    (ws₁ : List (List Char)) (w : List Char) (ws₂ : List (List Char))
    (hwords : words name = ws₁ ++ w :: ws₂) (hup : ∀ c ∈ w, c.isUpper = true) :
    (((∃ v ∈ ws₁, ∃ c ∈ v, isSpace c = false) ∨
        (w.length ≠ 1 ∧ isSpecialCaps w = false)) →
      w <:+: canonicalFlagName U name) ∧
    ((∀ v ∈ ws₁, ∀ c ∈ v, isSpace c = true) →
      (w.length = 1 ∨ isSpecialCaps w = true) →
      w.map Char.toLower <+: canonicalFlagName U name) := by
  obtain ⟨P, Q, hparts, hfirst, hlater⟩ := parts_around U name ws₁ w ws₂ hwords hup
  unfold canonicalFlagName
  rw [hparts, specialCapsFrom_append]
  constructor
  · intro h
    by_cases hP : P = []
    · subst hP
      have hcase : w.length ≠ 1 ∧ isSpecialCaps w = false := by
        rcases h with h | h
        · exact absurd rfl (hlater h)
        · exact h
      simp only [specialCapsFrom, List.nil_append, List.length_nil, Nat.add_zero, if_true,
        replaceSpecialCaps, hcase.2, Bool.false_eq_true, if_false]
      rw [lowerFirst_caps U w _ hup hcase.1]
      exact ⟨[], (specialCapsFrom U (0 + 1) Q).flatten, by simp⟩
    · obtain ⟨p, P', rfl⟩ := List.exists_cons_of_ne_nil hP
      have hidx : ¬ (0 + (p :: P').length = 0) := by simp
      simp only [specialCapsFrom, hidx, if_false, replaceSpecialCaps_ToUpper U w hup,
        List.cons_append]
      exact infix_flatten_lowerFirst U _ _ w _
  · intro hall hcase
    have hP := hfirst hall
    subst hP
    by_cases hs : isSpecialCaps w = true
    · simp only [specialCapsFrom, List.nil_append, List.length_nil, Nat.add_zero, if_true,
        replaceSpecialCaps, hs, ToLower_upper U w hup]
      rw [lowerFirst_lowered U w _ hup]
      exact ⟨(specialCapsFrom U (0 + 1) Q).flatten, by simp⟩
    · have hlen : w.length = 1 := by
        rcases hcase with h | h
        · exact h
        · exact absurd h hs
      simp only [specialCapsFrom, List.nil_append, List.length_nil, Nat.add_zero, if_true,
        replaceSpecialCaps, hs, Bool.false_eq_true, if_false]
      rw [lowerFirst_single U w _ hup hlen]
      exact ⟨(specialCapsFrom U (0 + 1) Q).flatten, by simp⟩

theorem canonicalFlagName_caps_words_witness :
    "URL".toList <:+: canonicalFlagName asciiTables "foo_URL".toList ∧
    "url".toList <+: canonicalFlagName asciiTables "URL_foo".toList :=
  ⟨(canonicalFlagName_caps_words asciiTables "foo_URL".toList ["foo".toList] "URL".toList []
      (by decide) (by decide)).1 (Or.inl (by decide)),
    (canonicalFlagName_caps_words asciiTables "URL_foo".toList [] "URL".toList ["foo".toList]
      (by decide) (by decide)).2 (by decide) (Or.inr (by decide))⟩

/-- C9 (as stated, refuted): the name `URL` is one word of upper-case letters, and its
canonical name is `url`, whatever the tables of package `unicode`: the word
does not appear in it with unchanged case. A single letter fares the same. -/
theorem canonicalFlagName_first_word_lowered :
    words "URL".toList = ["URL".toList] ∧
    (∀ U : UnicodeTables, canonicalFlagName U "URL".toList = "url".toList) ∧
    ¬ ("URL".toList <:+: canonicalFlagName asciiTables "URL".toList) ∧
    canonicalFlagName asciiTables "A".toList = "a".toList :=
  ⟨by decide,
    fun U => (canonicalFlagName_ascii U asciiTables "URL".toList (by decide)).trans (by decide),
    by decide, by decide⟩

end Statspusher

end Cerana

/-! ## Theorems: validate -/

namespace Cerana

namespace Statspusher

/-- C11 (code bug): a configuration whose dataset interval is negative (minus one
nanosecond), valid otherwise, is accepted by `validate`: the intervals and the
timeout are only compared with zero. -/
theorem validate_accepts_negative_interval :
    validate parsesLocalhost
      { datasetInterval := -1, bundleInterval := 1000, nodeInterval := 1000,
        requestTimeout := 1000, nodeDataURL := "http://localhost:8080",
        clusterDataURL := "http://localhost:8080", datasetDir := "/data" } = none ∧
    validate parsesLocalhost
      { datasetInterval := 0, bundleInterval := 1000, nodeInterval := 1000,
        requestTimeout := 1000, nodeDataURL := "http://localhost:8080",
        clusterDataURL := "http://localhost:8080", datasetDir := "/data" } =
      some "dataset interval must be > 0" := by
  decide

end Statspusher

/-! ## Theorems: DatasetImport -/

namespace Datatrade

/-- C12 (code bug): for a valid request with `NFS` true and `ReadOnly` false, the
dataset placed in the result and sent to `update-dataset` has `NFS` false: the
field is copied from `args.ReadOnly`. -/
theorem DatasetImport_nfs_from_readOnly :
    DatasetImport
      { newID := "d1", node := Except.ok "n1", taskURLError := none, receiveError := none,
        snapshotError := none, configError := none }
      { args := some { NFS := true, Quota := 10, ReadOnly := false, Redundancy := 1 },
        StreamURL := some "unix:///tmp/s" } =
      { result := some
          { Dataset := { ID := "d1", NFS := false, Quota := 10, ReadOnly := false,
                         Redundancy := 1 },
            NodeID := "n1" },
        err := none,
        calls :=
          [Call.listNodes, Call.zfsReceive "n1" "d1" "unix:///tmp/s",
           Call.updateDataset
             { ID := "d1", NFS := false, Quota := 10, ReadOnly := false, Redundancy := 1 }] } := by
  decide

end Datatrade

/-! ## Theorems: writeIDMapFile -/

namespace Namespace

theorem set_length_append (done : List (List Char)) (x y : List Char)
    (rest : List (List Char)) :
    (done ++ x :: rest).set done.length y = done ++ y :: rest := by
  rw [List.set_append_right _ _ (Nat.le_refl _)]
  simp

theorem fillContent_eq (ms : List IDMap) :
    ∀ done : List (List Char),
      fillContent done.length ms (done ++ List.replicate ms.length []) =
        done ++ ms.map formatIDMap := by
  induction ms with
  | nil => intro done; simp [fillContent]
  | cons m ms ih =>
    intro done
    have h := ih (done ++ [formatIDMap m])
    simp only [List.length_append, List.length_singleton, List.append_assoc,
      List.singleton_append] at h
    simp only [fillContent, List.length_cons, List.replicate_succ, set_length_append,
      List.map_cons]
    exact h

theorem makeContent_eq (idMaps : List IDMap) : makeContent idMaps = idMaps.map formatIDMap := by
  have h := fillContent_eq idMaps []
  simpa [makeContent] using h

theorem foldl_join (sep : List Char) (rest : List (List Char)) :
    ∀ a : List Char,
      rest.foldl (fun b s => b ++ sep ++ s) a = a ++ (rest.map fun s => sep ++ s).flatten := by
  induction rest with
  | nil => intro a; simp
  | cons r rs ih =>
    intro a
    rw [List.foldl_cons, ih (a ++ sep ++ r)]
    simp [List.append_assoc]

theorem intercalate_cons (sep a : List Char) (rest : List (List Char)) :
    List.intercalate sep (a :: rest) = a ++ (rest.map fun s => sep ++ s).flatten := by
  induction rest generalizing a with
  | nil => simp [List.intercalate]
  | cons r rs ih =>
    have h := ih r
    simp only [List.intercalate, List.intersperse, List.flatten_cons] at h ⊢
    simp [h]

theorem Join_eq_intercalate (elems : List (List Char)) (sep : List Char) :
    Join elems sep = List.intercalate sep elems := by
  match elems with
  | [] => simp [Join, List.intercalate]
  | [a] => simp [Join, List.intercalate]
  | a :: b :: rest =>
    rw [intercalate_cons]
    simp only [Join]
    exact foldl_join sep (b :: rest) a

theorem formatUint_eq_toString (n : Nat) : formatUint n = (toString n).toList := rfl

theorem formatIDMap_eq_specLine (m : IDMap) : formatIDMap m = specLine m := by
  simp [formatIDMap, specLine, formatUint_eq_toString, String.toList]


theorem digitChar_ne_newline (k : Nat) (h : k < 10) : Nat.digitChar k ≠ '\n' := by
  have key : ∀ j, j < 10 → Nat.digitChar j ≠ '\n' := by decide
  exact key k h

theorem toDigitsCore_no_newline (fuel : Nat) :
    ∀ (n : Nat) (acc : List Char), (∀ c ∈ acc, c ≠ '\n') →
      ∀ c ∈ Nat.toDigitsCore 10 fuel n acc, c ≠ '\n' := by
  induction fuel with
  | zero => intro n acc h; simpa [Nat.toDigitsCore] using h
  | succ f ih =>
    intro n acc h
    have hacc : ∀ c ∈ Nat.digitChar (n % 10) :: acc, c ≠ '\n' := by
      intro c hc
      rcases List.mem_cons.mp hc with rfl | hc
      · exact digitChar_ne_newline _ (Nat.mod_lt _ (by decide))
      · exact h c hc
    simp only [Nat.toDigitsCore]
    split
    · exact hacc
    · exact ih _ _ hacc

theorem formatUint_no_newline (n : Nat) : ∀ c ∈ formatUint n, c ≠ '\n' :=
  toDigitsCore_no_newline _ n [] (by simp)

theorem formatIDMap_no_newline (m : IDMap) : ∀ c ∈ formatIDMap m, c ≠ '\n' := by
  intro c hc
  simp only [formatIDMap, List.mem_append, List.mem_cons] at hc
  rcases hc with hc | rfl | hc | rfl | hc
  · exact formatUint_no_newline _ c hc
  · decide
  · exact formatUint_no_newline _ c hc
  · decide
  · exact formatUint_no_newline _ c hc

theorem count_newline_lines (lines : List (List Char))
    (h : ∀ l ∈ lines, ∀ c ∈ l, c ≠ '\n') :
    (lines.map fun s => ['\n'] ++ s).flatten.count '\n' = lines.length := by
  induction lines with
  | nil => simp
  | cons l ls ih =>
    have hl : l.count '\n' = 0 :=
      List.count_eq_zero.mpr fun hmem => h l (List.mem_cons_self _ _) _ hmem rfl
    have := ih fun l' hl' => h l' (List.mem_cons_of_mem _ hl')
    rw [List.map_cons, List.flatten_cons, List.count_append, List.count_append, this, hl]
    simp
    omega

theorem count_newline_specText (idMaps : List IDMap) :
    (specText idMaps).count '\n' = max 1 idMaps.length := by
  cases idMaps with
  | nil => simp [specText, List.intercalate]
  | cons m ms =>
    have hm : (specLine m).count '\n' = 0 :=
      List.count_eq_zero.mpr fun hmem =>
        formatIDMap_no_newline m _ (formatIDMap_eq_specLine m ▸ hmem) rfl
    have hms := count_newline_lines (ms.map specLine) (by
      intro l hl
      obtain ⟨m', _, rfl⟩ := List.mem_map.mp hl
      exact fun c hc => formatIDMap_no_newline m' c (formatIDMap_eq_specLine m' ▸ hc))
    rw [specText, List.map_cons, intercalate_cons, List.count_append, List.count_append, hm,
      hms]
    simp

/-- C13: when the map file opens and accepts the write, `writeIDMapFile` leaves in it
the lines "<ID> <HostID> <Length>" of the mappings, in input order, joined by
newlines and followed by one newline; the text holds one newline per mapping,
and for the empty list it is a single newline. -/
theorem writeIDMapFile_writes_lines (fs : String → Option MapFile) (path : String)
    (f : MapFile) (idMaps : List IDMap) (hopen : fs path = some f) (hroom : f.room = none) :
    writeIDMapFile fs path idMaps = (some { f with content := specText idMaps }, none) ∧
    (specText idMaps).count '\n' = max 1 idMaps.length ∧
    writeIDMapFile fs path [] = (some { f with content := ['\n'] }, none) := by
  have hline : formatIDMap = specLine := funext formatIDMap_eq_specLine
  refine ⟨?_, count_newline_specText idMaps, ?_⟩
  · simp [writeIDMapFile, hopen, Fprintln, hroom, makeContent_eq, Join_eq_intercalate,
      specText, hline]
  · simp [writeIDMapFile, hopen, Fprintln, hroom, makeContent_eq, Join_eq_intercalate,
      List.intercalate]

theorem writeIDMapFile_writes_lines_witness :
    writeIDMapFile procFiles "/proc/42/uid_map" [⟨0, 1000, 1⟩, ⟨1, 100000, 65536⟩] =
      (some { content := specText [⟨0, 1000, 1⟩, ⟨1, 100000, 65536⟩], room := none }, none) ∧
    specText [⟨0, 1000, 1⟩, ⟨1, 100000, 65536⟩] = "0 1000 1\n1 100000 65536\n".toList :=
  ⟨(writeIDMapFile_writes_lines procFiles "/proc/42/uid_map" { content := [], room := none }
      [⟨0, 1000, 1⟩, ⟨1, 100000, 65536⟩] (by decide) rfl).1, by decide⟩

end Namespace

end Cerana
